import Mathlib

/-!
Shallow embedding of the mcp-mycelium indexing, graph and hybrid-search core
(tag engine, backlink engine, graph analyzer betweenness, LRU embedding cache,
search engine), together with theorems settling the frozen claims about it.

JavaScript specifics are modelled explicitly: `Map` iteration order is
insertion order and `set` on an existing key keeps its position, numeric `||`
treats 0 as falsy, `Array.prototype.sort` is stable, and timestamps taken via
`Date.now()` are passed in as explicit natural-number parameters.
-/

namespace Mycelium

/-- Association-list map with string keys mirroring a JavaScript `Map`:
iteration order is insertion order, and `set` on an existing key replaces the
value in place, keeping the entry position. -/
abbrev SMap (α : Type) :=
  List (String × α)

namespace SMap

def find? {α : Type} (m : SMap α) (k : String) : Option α :=
  match m with
  | [] => none
  | (k2, v) :: rest => if k2 = k then some v else find? rest k

def getD {α : Type} (m : SMap α) (k : String) (d : α) : α :=
  (find? m k).getD d

def hasKey {α : Type} (m : SMap α) (k : String) : Bool :=
  (find? m k).isSome

def set {α : Type} (m : SMap α) (k : String) (v : α) : SMap α :=
  match m with
  | [] => [(k, v)]
  | (k2, v2) :: rest => if k2 = k then (k2, v) :: rest else (k2, v2) :: set rest k v

def erase {α : Type} (m : SMap α) (k : String) : SMap α :=
  match m with
  | [] => []
  | (k2, v2) :: rest => if k2 = k then rest else (k2, v2) :: erase rest k

def keys {α : Type} (m : SMap α) : List String :=
  m.map Prod.fst

def sumVals (m : SMap ℚ) : ℚ :=
  (m.map Prod.snd).sum

end SMap

/-- `String.prototype.startsWith`. -/
def strStartsWith (s p : String) : Bool :=
  p.data.isPrefixOf s.data

/-- `String.prototype.split` with a single-character separator. -/
def splitOnCharGo (sep : Char) (cur : List Char) : List Char → List String
  | [] => [String.mk cur.reverse]
  | c :: rest =>
    if c = sep then String.mk cur.reverse :: splitOnCharGo sep [] rest
    else splitOnCharGo sep (c :: cur) rest

def splitOnChar (sep : Char) (s : String) : List String :=
  splitOnCharGo sep [] s.data

/-- `Array.prototype.join` with a single-character separator. -/
def joinChar (sep : Char) : List String → String
  | [] => ""
  | [x] => x
  | x :: rest => String.mk (x.data ++ sep :: (joinChar sep rest).data)

/-- Lexicographic comparison of UTF-16 code sequences, as the default
JavaScript sort comparator orders strings (the modelled strings are ASCII). -/
def ltCharList : List Char → List Char → Bool
  | [], [] => false
  | [], _ :: _ => true
  | _ :: _, [] => false
  | a :: asx, b :: bsx => if a < b then true else if b < a then false else ltCharList asx bsx

/-- Stable insertion step for a descending sort by a rational key: the new
element is placed before the first element with a strictly smaller key, hence
after all earlier elements with an equal key. -/
def insertDesc {α : Type} (key : α → ℚ) (x : α) : List α → List α
  | [] => [x]
  | y :: ys => if key y < key x then x :: y :: ys else y :: insertDesc key x ys

/-- Stable descending sort by a rational key, modelling the stable
`Array.prototype.sort` with comparator `(a, b) => key(b) - key(a)`. -/
def sortDesc {α : Type} (key : α → ℚ) (l : List α) : List α :=
  l.foldl (fun acc x => insertDesc key x acc) []

/-- Stable insertion step for an ascending lexicographic sort of strings,
modelling the default `Array.prototype.sort`. -/
def insertStrAsc (x : String) : List String → List String
  | [] => [x]
  | y :: ys => if ltCharList x.data y.data then x :: y :: ys else y :: insertStrAsc x ys

/-- Stable ascending string sort (default JavaScript `sort()`). -/
def sortStrAsc (l : List String) : List String :=
  l.foldl (fun acc x => insertStrAsc x acc) []

/-- Whitespace test covering the ASCII whitespace used by the modelled
inputs (the JavaScript `\s` class is wider but agrees on these). -/
def isWsChar (c : Char) : Bool :=
  c == ' ' || c == '\t' || c == '\n' || c == '\r'

/-- Lower-case a string character by character (ASCII `toLowerCase`). -/
def lowerStr (s : String) : String :=
  String.mk (s.data.map Char.toLower)

/-- Trim whitespace from both ends (JavaScript `String.prototype.trim`). -/
def trimStr (s : String) : String :=
  String.mk (((s.data.dropWhile isWsChar).reverse.dropWhile isWsChar).reverse)

/-- Split on runs of whitespace exactly as `split(/\s+/)` does: an empty
string yields one empty piece, and leading or trailing whitespace produces an
empty piece at the corresponding end. The `skip` flag records being inside a
separator run whose piece was already emitted. -/
def splitWsGo (skip : Bool) (cur : List Char) : List Char → List String
  | [] => if skip then [""] else [String.mk cur.reverse]
  | c :: rest =>
    if skip then
      if isWsChar c then splitWsGo true [] rest
      else splitWsGo false [c] rest
    else
      if isWsChar c then String.mk cur.reverse :: splitWsGo true [] rest
      else splitWsGo false (c :: cur) rest

def splitWs (s : String) : List String :=
  splitWsGo false [] s.data

/-- Substring containment on character lists (`String.prototype.includes`);
an empty needle is contained in every string. -/
def isSubOf (needle : List Char) : List Char → Bool
  | [] => needle.isEmpty
  | c :: t => needle.isPrefixOf (c :: t) || isSubOf needle t

def strIncludes (hay needle : String) : Bool :=
  isSubOf needle.data hay.data

/-- First match position at or after `start`, as `indexOf(needle, start)`
computes it: the start position is clamped to the string length, and an empty
needle matches at the clamped start position. -/
def indexOfFrom (needle hay : List Char) (start : Nat) : Option Nat :=
  (List.range (hay.length + 1)).find?
    (fun j => decide (min start hay.length ≤ j) && needle.isPrefixOf (hay.drop j))

/-- Substring by start and end index over character lists
(`String.prototype.substring` after the caller clamps the bounds). -/
def substringJs (s : List Char) (a b : Nat) : String :=
  String.mk ((s.drop a).take (b - a))

/-- Add a string to a JavaScript `Set` modelled as an insertion-ordered,
duplicate-free list. -/
def setAddStr (l : List String) (s : String) : List String :=
  if s ∈ l then l else l ++ [s]

/-- Remove a string from a JavaScript `Set` modelled as a list. -/
def setDelStr (l : List String) (s : String) : List String :=
  l.filter (fun x => x ≠ s)

/-! ### Backlink engine (`BacklinkEngine`, `backlink-engine.ts`) -/

/-- Collapse each run of slashes to a single slash (`replace(/\/+/g, '/')`),
with `inRun` recording that the previous character was a slash already
emitted. -/
def collapseSlashGo (inRun : Bool) : List Char → List Char
  | [] => []
  | c :: rest =>
    if c = '/' then
      if inRun then collapseSlashGo true rest
      else '/' :: collapseSlashGo true rest
    else c :: collapseSlashGo false rest

def collapseSlash (l : List Char) : List Char :=
  collapseSlashGo false l

/-- Path normalization of `BacklinkEngine.normalizePath`: backslashes become
slashes, runs of slashes collapse, one trailing slash is dropped, and the
result is lower-cased. -/
def normalizePath (p : String) : String :=
  let s1 := p.data.map (fun c => if c = '\\' then '/' else c)
  let s2 := collapseSlash s1
  let s3 := if s2.getLast? = some '/' then s2.dropLast else s2
  String.mk (s3.map Char.toLower)

/-- Process the parts of a relative link target against a directory stack:
`..` pops (a pop on an empty stack is a no-op, as `Array.prototype.pop` is),
`.` and empty parts are skipped, anything else is pushed. -/
def resolveRelGo (dir : List String) : List String → List String
  | [] => dir
  | part :: rest =>
    if part = ".." then resolveRelGo dir.dropLast rest
    else if part = "." ∨ part = "" then resolveRelGo dir rest
    else resolveRelGo (dir ++ [part]) rest

/-- Link-target resolution of `BacklinkEngine.resolveTargetPath`: absolute
targets are normalized directly, `./` and `../` targets are resolved against
the source document directory, and bare names are resolved relative to the
source directory. -/
def resolveTargetPath (target current : String) : String :=
  if strStartsWith target "/" then normalizePath target
  else if strStartsWith target "./" || strStartsWith target "../" then
    let currentDir := (splitOnChar '/' current).dropLast
    let targetParts := splitOnChar '/' target
    normalizePath (joinChar '/' (resolveRelGo currentDir targetParts))
  else
    let currentDir := (splitOnChar '/' current).dropLast
    normalizePath (joinChar '/' (currentDir ++ [target]))

inductive LinkKind where
  | wikilink
  | markdown
deriving DecidableEq, Repr

structure LinkRef where
  target : String
  text : String
  line : Nat
  kind : LinkKind
deriving DecidableEq, Repr

structure BacklinkInfo where
  outgoing : List LinkRef
  incoming : List LinkRef
deriving DecidableEq, Repr

/-- State of the backlink engine: the `backlinks` map plus the `fileExists`
registry set. -/
structure BState where
  backlinks : SMap BacklinkInfo
  fileExists : List String
deriving DecidableEq, Repr

def emptyBState : BState :=
  { backlinks := [], fileExists := [] }

/-- `BacklinkEngine.addIncomingLink`: create the target entry on demand and
append the incoming reference. -/
def addIncomingLink (m : SMap BacklinkInfo) (targetPath : String) (ref : LinkRef) :
    SMap BacklinkInfo :=
  let info := SMap.getD m targetPath { outgoing := [], incoming := [] }
  SMap.set m targetPath { info with incoming := info.incoming ++ [ref] }

/-- `BacklinkEngine.removeIncomingLink`: drop every incoming entry whose
stored source (the `target` field of the reciprocal reference) is
`sourcePath`. -/
def removeIncomingLink (m : SMap BacklinkInfo) (targetPath sourcePath : String) :
    SMap BacklinkInfo :=
  match SMap.find? m targetPath with
  | none => m
  | some info =>
    SMap.set m targetPath
      { info with incoming := info.incoming.filter (fun l => l.target ≠ sourcePath) }

/-- One link of the insertion pass of `BacklinkEngine.addFileLinks`: a
reciprocal incoming entry is appended at the resolved target. -/
def addStep (np : String) (acc : SMap BacklinkInfo) (l : LinkRef) : SMap BacklinkInfo :=
  addIncomingLink acc (resolveTargetPath l.target np)
    { target := np, text := l.text, line := l.line, kind := l.kind }

/-- `BacklinkEngine.addFileLinks`: replace the outgoing list of the (created
on demand) source entry and append one reciprocal incoming entry per link at
its resolved target. -/
def addFileLinksM (m : SMap BacklinkInfo) (filePath : String) (links : List LinkRef) :
    SMap BacklinkInfo :=
  let np := normalizePath filePath
  let info := SMap.getD m np { outgoing := [], incoming := [] }
  let m1 := SMap.set m np { info with outgoing := links }
  links.foldl (addStep np) m1

/-- One link of the retraction pass of `BacklinkEngine.removeFileLinks`. -/
def remStep (np : String) (acc : SMap BacklinkInfo) (l : LinkRef) : SMap BacklinkInfo :=
  removeIncomingLink acc (resolveTargetPath l.target np) np

/-- `BacklinkEngine.removeFileLinks`: retract the reciprocal incoming entries
of the current outgoing links, then clear the outgoing list. -/
def removeFileLinksM (m : SMap BacklinkInfo) (filePath : String) : SMap BacklinkInfo :=
  let np := normalizePath filePath
  match SMap.find? m np with
  | none => m
  | some info =>
    let m1 := info.outgoing.foldl (remStep np) m
    match SMap.find? m1 np with
    | none => m1
    | some info2 => SMap.set m1 np { info2 with outgoing := [] }

/-- `BacklinkEngine.updateFileLinks`: remove the previous links, add the new
ones, and register the raw file path as existing. -/
def updateFileLinks (st : BState) (filePath : String) (links : List LinkRef) : BState :=
  { backlinks := addFileLinksM (removeFileLinksM st.backlinks filePath) filePath links,
    fileExists := setAddStr st.fileExists filePath }

/-- `BacklinkEngine.removeFile`: retract outgoing links, sweep incoming
entries sourced from the removed file, and delete its map entry and existence
registration. -/
def removeFileB (st : BState) (filePath : String) : BState :=
  let np := normalizePath filePath
  let b1 := removeFileLinksM st.backlinks np
  let b2 := b1.map (fun kv =>
    (kv.1, { kv.2 with incoming := kv.2.incoming.filter (fun l => l.target ≠ np) }))
  { backlinks := SMap.erase b2 np, fileExists := setDelStr st.fileExists np }

/-- `BacklinkEngine.getBacklinks`: defaulting read of a document entry. -/
def getBacklinks (st : BState) (filePath : String) : BacklinkInfo :=
  SMap.getD st.backlinks (normalizePath filePath) { outgoing := [], incoming := [] }

/-- Neighbor list used by the traversal operations: resolved outgoing targets
followed by the sources of incoming links. -/
def nbrsOf (info : BacklinkInfo) (current : String) : List String :=
  info.outgoing.map (fun l => resolveTargetPath l.target current) ++
    info.incoming.map (fun l => l.target)

/-- Neighbors of a node in the backlinks map (no entry means no neighbors). -/
def nbrs (m : SMap BacklinkInfo) (v : String) : List String :=
  match SMap.find? m v with
  | none => []
  | some info => nbrsOf info v

/-- `BacklinkEngine.traverseGraph`: recursive depth-first traversal with a
shared visited set and a minimum-relaxing related map. The `Sum.inl` task
enters a node (the source body before its neighbor loop) and the `Sum.inr`
task runs the neighbor loop; the relaxation guard mirrors the falsy test
`!existingDistance || distance < existingDistance`. The fuel only bounds the
recursion depth for Lean; a `some` result means the recursion of the source
finished. -/
def travGo (m : SMap BacklinkInfo) (maxHops : Nat) :
    Nat → Sum (String × Nat) (List String × Nat) → List String × SMap Nat →
      Option (List String × SMap Nat)
  | 0, _, _ => none
  | fuel + 1, Sum.inl (current, hops), st =>
    if hops ≥ maxHops then some st
    else
      let visited := setAddStr st.1 current
      match SMap.find? m current with
      | none => some (visited, st.2)
      | some info => travGo m maxHops fuel (Sum.inr (nbrsOf info current, hops)) (visited, st.2)
  | _fuel + 1, Sum.inr ([], _), st => some st
  | fuel + 1, Sum.inr (n :: rest, hops), st =>
    if n ∈ st.1 then travGo m maxHops fuel (Sum.inr (rest, hops)) st
    else
      let distance := hops + 1
      let doSet :=
        match SMap.find? st.2 n with
        | none => true
        | some d => d == 0 || decide (distance < d)
      let related := if doSet then SMap.set st.2 n distance else st.2
      match travGo m maxHops fuel (Sum.inl (n, distance)) (st.1, related) with
      | none => none
      | some st2 => travGo m maxHops fuel (Sum.inr (rest, hops)) st2

/-- `BacklinkEngine.findRelatedFiles`: run the traversal from the normalized
origin with empty visited and related state, then drop the origin. -/
def findRelatedFiles (st : BState) (filePath : String) (maxHops fuel : Nat) :
    Option (SMap Nat) :=
  let np := normalizePath filePath
  match travGo st.backlinks maxHops fuel (Sum.inl (np, 0)) ([], []) with
  | none => none
  | some res => some (SMap.erase res.2 np)

/-- Neighbor scan of one dequeued entry in `BacklinkEngine.getShortestPath`:
return the completed route on meeting the target, otherwise enqueue every
unvisited neighbor with its extended route. -/
def bfsScan (t : String) (r : List String) :
    List String → List (String × List String) → List String →
      Sum (List String) (List (String × List String) × List String)
  | [], queue, visited => Sum.inr (queue, visited)
  | n :: rest, queue, visited =>
    if n = t then Sum.inl (r ++ [n])
    else if n ∈ visited then bfsScan t r rest queue visited
    else bfsScan t r rest (queue ++ [(n, r ++ [n])]) (visited ++ [n])

/-- Queue loop of `BacklinkEngine.getShortestPath`: FIFO breadth-first search
skipping routes longer than `maxDepth`. A `some` result means the source loop
finished within the given fuel. -/
def bfsLoop (m : SMap BacklinkInfo) (t : String) (maxDepth : Nat) :
    Nat → List (String × List String) → List String → Option (Option (List String))
  | 0, _, _ => none
  | _fuel + 1, [], _ => some none
  | fuel + 1, (v, r) :: rest, visited =>
    if r.length > maxDepth then bfsLoop m t maxDepth fuel rest visited
    else
      match SMap.find? m v with
      | none => bfsLoop m t maxDepth fuel rest visited
      | some info =>
        match bfsScan t r (nbrsOf info v) rest visited with
        | Sum.inl p => some (some p)
        | Sum.inr qv => bfsLoop m t maxDepth fuel qv.1 qv.2

/-- Total number of neighbor occurrences in the map; one more than this
bounds the number of queue-loop iterations. -/
def totalNbrLen (m : SMap BacklinkInfo) : Nat :=
  (m.map (fun kv => (nbrsOf kv.2 kv.1).length)).sum

/-- `BacklinkEngine.getShortestPath`. The fuel `totalNbrLen m + 2` is proved
sufficient below (the loop always finishes before exhausting it), so the
`none` fallback of the loop is unreachable. -/
def getShortestPath (st : BState) (fromPath toPath : String) (maxDepth : Nat) :
    Option (List String) :=
  let nf := normalizePath fromPath
  let nt := normalizePath toPath
  if nf = nt then some [nf]
  else
    match bfsLoop st.backlinks nt maxDepth (totalNbrLen st.backlinks + 2) [(nf, [nf])] [nf] with
    | some r => r
    | none => none

/-- One iteration of `BacklinkEngine.calculatePageRank`: every file starts at
`(1 - damping) / n`, then every file with outgoing links distributes
`rank * damping / outCount` to each resolved target. -/
def prIter (m : SMap BacklinkInfo) (files : List String) (n damping : ℚ)
    (ranks : SMap ℚ) : SMap ℚ :=
  let base := files.foldl (fun acc f => SMap.set acc f ((1 - damping) / n)) []
  m.foldl
    (fun acc kv =>
      let out := kv.2.outgoing
      if 0 < out.length then
        let contribution := SMap.getD ranks kv.1 0 * damping / (out.length : ℚ)
        out.foldl
          (fun a l =>
            let tgt := resolveTargetPath l.target kv.1
            SMap.set a tgt (SMap.getD a tgt 0 + contribution))
          acc
      else acc)
    base

def prLoop (m : SMap BacklinkInfo) (files : List String) (n damping : ℚ) :
    Nat → SMap ℚ → SMap ℚ
  | 0, ranks => ranks
  | k + 1, ranks => prLoop m files n damping k (prIter m files n damping ranks)

/-- `BacklinkEngine.calculatePageRank`: ranks start at `1 / n` and the
iteration runs a fixed number of times with no convergence check. -/
def calculatePageRank (m : SMap BacklinkInfo) (iterations : Nat) (damping : ℚ) :
    SMap ℚ :=
  let files := SMap.keys m
  if files.length = 0 then []
  else
    let n : ℚ := (files.length : ℚ)
    let init := files.foldl (fun acc f => SMap.set acc f (1 / n)) []
    prLoop m files n damping iterations init

/-- `calculatePageRank` with its default arguments (20 iterations, damping
factor 0.85), as the search engine invokes it. -/
def calculatePageRankDefault (m : SMap BacklinkInfo) : SMap ℚ :=
  calculatePageRank m 20 (17 / 20)

/-! ### Tag engine (`TagEngine`, `tag-engine.ts`) -/

structure TagInfo where
  files : List String
  coOccurring : SMap Nat
  created : Nat
  lastSeen : Nat
  hierarchy : List String
deriving DecidableEq, Repr

structure TagState where
  tags : SMap TagInfo
deriving DecidableEq, Repr

def emptyTagState : TagState :=
  { tags := [] }

/-- `TagEngine.normalizeTag`: lower-case, trim, strip one leading `#`, and
replace each whitespace run by a dash. -/
def normalizeTag (t : String) : String :=
  let trimmed := trimStr (lowerStr t)
  let stripped := if strStartsWith trimmed "#" then String.mk (trimmed.data.drop 1) else trimmed
  joinChar '-' (splitWs stripped)

/-- Keep the first occurrence of each element, as the
`array.indexOf(tag) === index` filter does. -/
def dedupFirstGo (seen : List String) : List String → List String
  | [] => []
  | x :: rest =>
    if x ∈ seen then dedupFirstGo seen rest
    else x :: dedupFirstGo (seen ++ [x]) rest

/-- `TagEngine.normalizeTags`: normalize, drop empties, dedup keeping first
occurrences. -/
def normalizeTags (ts : List String) : List String :=
  dedupFirstGo [] ((ts.map normalizeTag).filter (fun t => 0 < t.length))

/-- `TagEngine.getTagHierarchy`: normalized tag split on the hierarchy
separator `/`. -/
def getTagHierarchy (tag : String) : List String :=
  splitOnChar '/' (normalizeTag tag)

/-- `TagEngine.addOrUpdateTag`: create the entry on first use, then register
the file and refresh the last-seen timestamp. -/
def addOrUpdateTag (st : TagState) (tag filePath : String) (ts : Nat) : TagState :=
  match SMap.find? st.tags tag with
  | none =>
    { tags := SMap.set st.tags tag
        { files := [filePath], coOccurring := [], created := ts, lastSeen := ts,
          hierarchy := getTagHierarchy tag } }
  | some info =>
    { tags := SMap.set st.tags tag
        { info with files := setAddStr info.files filePath, lastSeen := ts } }

/-- `TagEngine.updateCoOccurrences`: bump the cumulative co-occurrence count
of every co-occurring tag. -/
def updateCoOccurrences (st : TagState) (tag : String) (coTags : List String) : TagState :=
  match SMap.find? st.tags tag with
  | none => st
  | some info =>
    let co := coTags.foldl (fun m c => SMap.set m c (SMap.getD m c 0 + 1)) info.coOccurring
    { tags := SMap.set st.tags tag { info with coOccurring := co } }

/-- `TagEngine.addTags`: for each normalized tag, register the file and bump
co-occurrences with the other normalized tags. -/
def addTags (st : TagState) (filePath : String) (tagNames : List String) (ts : Nat) :
    TagState :=
  let normalized := normalizeTags tagNames
  normalized.foldl
    (fun s tag =>
      updateCoOccurrences (addOrUpdateTag s tag filePath ts) tag
        (normalized.filter (fun t2 => t2 ≠ tag)))
    st

/-- `TagEngine.removeAllTagsFromFile` (the `removeTags(filePath)` path of the
public `removeTags`): drop the file from every tag entry, leaving empty
entries in place. -/
def removeAllTagsFromFile (st : TagState) (filePath : String) : TagState :=
  { tags := st.tags.map (fun kv => (kv.1, { kv.2 with files := setDelStr kv.2.files filePath })) }

/-- `TagEngine.removeTagFromFile` (the named-tags path of `removeTags`). -/
def removeTagFromFile (st : TagState) (tag filePath : String) : TagState :=
  match SMap.find? st.tags tag with
  | none => st
  | some info =>
    { tags := SMap.set st.tags tag { info with files := setDelStr info.files filePath } }

/-- `TagEngine.updateFileTags`: remove all of the tags of the file, then add
the new ones. No orphan cleanup happens on this path. -/
def updateFileTags (st : TagState) (filePath : String) (newTags : List String) (ts : Nat) :
    TagState :=
  addTags (removeAllTagsFromFile st filePath) filePath newTags ts

/-- `TagEngine.cleanupOrphanedTags`: delete every tag entry whose file set is
empty. -/
def cleanupOrphanedTags (st : TagState) : TagState :=
  { tags := st.tags.filter (fun kv => kv.2.files.length ≠ 0) }

/-- `TagEngine.removeFile`: remove the tags of the file, then garbage-collect
empty entries. -/
def removeFileT (st : TagState) (filePath : String) : TagState :=
  cleanupOrphanedTags (removeAllTagsFromFile st filePath)

/-- `TagEngine.getTagCount`. -/
def getTagCount (st : TagState) : Nat :=
  st.tags.length

/-- `TagEngine.getFilesByTag`. -/
def getFilesByTag (st : TagState) (tagName : String) : List String :=
  match SMap.find? st.tags (normalizeTag tagName) with
  | none => []
  | some info => info.files

inductive TagMode where
  | and
  | or
deriving DecidableEq, Repr

def intersectLists : List (List String) → List String
  | [] => []
  | s :: rest => rest.foldl (fun acc s2 => acc.filter (fun x => x ∈ s2)) s

def unionLists (ls : List (List String)) : List String :=
  ls.foldl (fun acc s => s.foldl setAddStr acc) []

/-- `TagEngine.getFilesByTags`: AND intersects, OR unions; empty input yields
empty output. -/
def getFilesByTags (st : TagState) (tagNames : List String) (mode : TagMode) :
    List String :=
  if tagNames.length = 0 then []
  else
    let sets := (normalizeTags tagNames).map (fun tag => getFilesByTag st tag)
    match mode with
    | TagMode.and => intersectLists sets
    | TagMode.or => unionLists sets

/-- `TagEngine.getCoOccurringTags`: co-occurrence entries sorted by count
descending, truncated to the limit. -/
def getCoOccurringTags (st : TagState) (tagName : String) (limit : Nat) :
    List (String × Nat) :=
  match SMap.find? st.tags (normalizeTag tagName) with
  | none => []
  | some info => (sortDesc (fun kv => (kv.2 : ℚ)) info.coOccurring).take limit

/-- `TagEngine.getParentTags`: the strict hierarchy ancestors, shortest
first. -/
def getParentTags (childTag : String) : List String :=
  let h := getTagHierarchy childTag
  ((List.range h.length).drop 1).map (fun i => joinChar '/' (h.take i))

/-- `TagEngine.getChildTags`: indexed tags exactly one hierarchy level below
the given tag, sorted lexicographically. -/
def getChildTags (st : TagState) (parentTag : String) : List String :=
  let np := normalizeTag parentTag
  let children := (SMap.keys st.tags).filter
    (fun tag =>
      (np.data ++ ['/']).isPrefixOf tag.data && tag ≠ np &&
        !(strIncludes (String.mk (tag.data.drop (np.data.length + 1))) "/"))
  sortStrAsc children

inductive SuggestionReason where
  | existing
  | coOccurrence
  | hierarchy
deriving DecidableEq, Repr

structure TagSuggestion where
  tag : String
  score : ℚ
  reason : SuggestionReason
deriving DecidableEq, Repr

/-- One tag of `TagEngine.getHierarchicalSuggestions`: indexed parents score
a fixed 5, children a fixed 3. -/
def hierParentStep (st : TagState) (a : List TagSuggestion) (p : String) :
    List TagSuggestion :=
  if SMap.hasKey st.tags p then
    a ++ [{ tag := p, score := 5, reason := SuggestionReason.hierarchy }]
  else a

def hierChildStep (a : List TagSuggestion) (c : String) : List TagSuggestion :=
  a ++ [{ tag := c, score := 3, reason := SuggestionReason.hierarchy }]

def hierStep (st : TagState) (acc : List TagSuggestion) (tag : String) :
    List TagSuggestion :=
  (getChildTags st tag).foldl hierChildStep
    ((getParentTags tag).foldl (hierParentStep st) acc)

/-- `TagEngine.getHierarchicalSuggestions`. -/
def getHierarchicalSuggestions (st : TagState) (existingTags : List String) :
    List TagSuggestion :=
  existingTags.foldl (hierStep st) []

/-- One existing tag of the co-occurrence pass of
`TagEngine.getTagSuggestions`: each co-occurring tag not already present is
suggested with its count as score. -/
def coPairStep (normalizedExisting : List String) (a : List TagSuggestion)
    (kv : String × Nat) : List TagSuggestion :=
  if kv.1 ∈ normalizedExisting then a
  else a ++ [{ tag := kv.1, score := (kv.2 : ℚ), reason := SuggestionReason.coOccurrence }]

def coStep (st : TagState) (normalizedExisting : List String)
    (acc : List TagSuggestion) (tag : String) : List TagSuggestion :=
  (getCoOccurringTags st tag 10).foldl (coPairStep normalizedExisting) acc

/-- `TagEngine.getTagSuggestions`: co-occurrence candidates (scored by their
count) followed by hierarchical candidates (fixed scores), sorted together by
score descending and truncated to 10. -/
def getTagSuggestions (st : TagState) (existingTags : List String) :
    List TagSuggestion :=
  let normalizedExisting := normalizeTags existingTags
  let coSugs := normalizedExisting.foldl (coStep st normalizedExisting) []
  let allSugs := coSugs ++ getHierarchicalSuggestions st existingTags
  (sortDesc (fun s => s.score) allSugs).take 10

/-! ### Bounded embedding cache (`LRUEmbeddingCache`) -/

structure CacheEntry where
  embedding : List ℚ
  timestamp : Nat
deriving DecidableEq, Repr

structure LRUCache where
  maxSize : Nat
  cache : SMap CacheEntry
deriving DecidableEq, Repr

/-- `LRUEmbeddingCache.get`: a hit refreshes the timestamp. `now` is the
value `Date.now()` returns during the call. -/
def lruGet (c : LRUCache) (k : String) (now : Nat) : Option (List ℚ) × LRUCache :=
  match SMap.find? c.cache k with
  | none => (none, c)
  | some e =>
    (some e.embedding, { c with cache := SMap.set c.cache k { e with timestamp := now } })

/-- `LRUEmbeddingCache.evictOldest`: scan for the entry with the strictly
smallest timestamp, starting from the sentinel key `''` and the current time;
delete only if the found key is truthy (a non-empty string). -/
def evictOldest (c : LRUCache) (now : Nat) : LRUCache :=
  let oldest := c.cache.foldl
    (fun acc kv => if kv.2.timestamp < acc.2 then (kv.1, kv.2.timestamp) else acc)
    ("", now)
  if oldest.1 ≠ "" then { c with cache := SMap.erase c.cache oldest.1 } else c

/-- `LRUEmbeddingCache.set`: evict before inserting a new key at capacity.
The two `Date.now()` reads inside one call (eviction comparison and stored
timestamp) are modelled as the same instant `now`. -/
def lruSet (c : LRUCache) (k : String) (v : List ℚ) (now : Nat) : LRUCache :=
  let c1 :=
    if c.maxSize ≤ c.cache.length ∧ SMap.hasKey c.cache k = false then evictOldest c now
    else c
  { c1 with cache := SMap.set c1.cache k { embedding := v, timestamp := now } }

/-! ### Graph analyzer betweenness (`GraphAnalyzer.calculateBetweennessCentrality`) -/

/-- `GraphAnalyzer.buildAdjacencyMatrix` restricted to what betweenness
needs: nodes pre-seeded with empty neighbor maps, then each edge inserted in
both directions with weight 1. -/
def buildAdjacency (nodes : List String) (edges : List (String × String)) :
    SMap (SMap ℚ) :=
  let base := nodes.foldl (fun acc nd => SMap.set acc nd []) []
  edges.foldl
    (fun acc e =>
      let acc1 := if SMap.hasKey acc e.1 then acc else SMap.set acc e.1 []
      let acc2 := if SMap.hasKey acc1 e.2 then acc1 else SMap.set acc1 e.2 []
      let m1 := SMap.set acc2 e.1 (SMap.set (SMap.getD acc2 e.1 []) e.2 1)
      SMap.set m1 e.2 (SMap.set (SMap.getD m1 e.2 []) e.1 1))
    base

structure BtwBfs where
  queue : List String
  dist : SMap Int
  paths : SMap (List String)
deriving Repr

/-- Neighbor scan of the betweenness BFS: enqueue undiscovered neighbors (the
`-1` sentinel) and record predecessors of neighbors one level further, the
second test reading the just-updated distance map. -/
def btwScan (current : String) (dcur : Int) (ns : List String) (st : BtwBfs) : BtwBfs :=
  ns.foldl
    (fun st n =>
      let st1 :=
        if SMap.find? st.dist n = some (-1) then
          { st with queue := st.queue ++ [n], dist := SMap.set st.dist n (dcur + 1) }
        else st
      if SMap.find? st1.dist n = some (dcur + 1) then
        { st1 with paths := SMap.set st1.paths n (SMap.getD st1.paths n [] ++ [current]) }
      else st1)
    st

/-- BFS queue loop of the betweenness computation, accumulating the
processing stack. -/
def btwLoop (adj : SMap (SMap ℚ)) : Nat → BtwBfs → List String → Option (List String × BtwBfs)
  | 0, _, _ => none
  | fuel + 1, st, stack =>
    match st.queue with
    | [] => some (stack, st)
    | current :: qrest =>
      let dcur := SMap.getD st.dist current 0
      let ns := SMap.keys (SMap.getD adj current [])
      let st2 := btwScan current dcur ns { st with queue := qrest }
      btwLoop adj fuel st2 (stack ++ [current])

/-- Dependency accumulation exactly as the source performs it: each
predecessor gains `1 + dependency(current)`, with no shortest-path-count
ratio. -/
def btwAccum (source : String) (paths : SMap (List String)) (stackRev : List String)
    (dep btw : SMap ℚ) : SMap ℚ :=
  (stackRev.foldl
    (fun (acc : SMap ℚ × SMap ℚ) current =>
      let dep2 := (SMap.getD paths current []).foldl
        (fun d pred => SMap.set d pred (SMap.getD d pred 0 + (1 + SMap.getD d current 0)))
        acc.1
      let btw2 :=
        if current ≠ source then
          SMap.set acc.2 current (SMap.getD acc.2 current 0 + SMap.getD dep2 current 0)
        else acc.2
      (dep2, btw2))
    (dep, btw)).2

/-- One source round of `calculateBetweennessCentrality`. -/
def btwSource (adj : SMap (SMap ℚ)) (nodes : List String) (fuel : Nat) (btw : SMap ℚ)
    (source : String) : Option (SMap ℚ) :=
  let paths0 : SMap (List String) := nodes.foldl (fun m nd => SMap.set m nd []) []
  let dist0 : SMap Int := nodes.foldl (fun m nd => SMap.set m nd (-1)) []
  let dep0 : SMap ℚ := nodes.foldl (fun m nd => SMap.set m nd 0) []
  let dist1 := SMap.set dist0 source 0
  match btwLoop adj fuel { queue := [source], dist := dist1, paths := paths0 } [] with
  | none => none
  | some res => some (btwAccum source res.2.paths res.1.reverse dep0 btw)

/-- `GraphAnalyzer.calculateBetweennessCentrality` over exact rationals: the
per-source accumulation followed by the `2 / ((n - 1) (n - 2))`
normalization for more than two nodes. -/
def calculateBetweennessCentrality (nodes : List String) (adj : SMap (SMap ℚ))
    (fuel : Nat) : Option (SMap ℚ) :=
  let btw0 : SMap ℚ := nodes.foldl (fun m nd => SMap.set m nd 0) []
  let acc := nodes.foldl
    (fun acc src => acc.bind (fun b => btwSource adj nodes fuel b src)) (some btw0)
  let n := nodes.length
  let norm : ℚ := if 2 < n then 2 / (((n : ℚ) - 1) * ((n : ℚ) - 2)) else 1
  acc.map (fun m => m.map (fun kv => (kv.1, kv.2 * norm)))

structure SpecBfs where
  queue : List String
  dist : SMap Int
  paths : SMap (List String)
  sigma : SMap ℚ
deriving Repr

/-- Modelled from the spec: the neighbor scan of a correct Brandes BFS, which
additionally counts shortest paths (`sigma`). -/
def specScan (current : String) (dcur : Int) (ns : List String) (st : SpecBfs) : SpecBfs :=
  ns.foldl
    (fun st n =>
      let st1 :=
        if SMap.find? st.dist n = some (-1) then
          { st with queue := st.queue ++ [n], dist := SMap.set st.dist n (dcur + 1) }
        else st
      if SMap.find? st1.dist n = some (dcur + 1) then
        { st1 with
          paths := SMap.set st1.paths n (SMap.getD st1.paths n [] ++ [current]),
          sigma := SMap.set st1.sigma n
            (SMap.getD st1.sigma n 0 + SMap.getD st1.sigma current 0) }
      else st1)
    st

/-- Modelled from the spec: Brandes BFS queue loop with path counting. -/
def specLoop (adj : SMap (SMap ℚ)) : Nat → SpecBfs → List String → Option (List String × SpecBfs)
  | 0, _, _ => none
  | fuel + 1, st, stack =>
    match st.queue with
    | [] => some (stack, st)
    | current :: qrest =>
      let dcur := SMap.getD st.dist current 0
      let ns := SMap.keys (SMap.getD adj current [])
      let st2 := specScan current dcur ns { st with queue := qrest }
      specLoop adj fuel st2 (stack ++ [current])

/-- Modelled from the spec: Brandes dependency accumulation, each predecessor
gaining the path-count fraction `sigma(pred) / sigma(current)` times
`1 + dependency(current)`. -/
def specAccum (source : String) (paths : SMap (List String)) (sigma : SMap ℚ)
    (stackRev : List String) (dep btw : SMap ℚ) : SMap ℚ :=
  (stackRev.foldl
    (fun (acc : SMap ℚ × SMap ℚ) current =>
      let dep2 := (SMap.getD paths current []).foldl
        (fun d pred =>
          SMap.set d pred
            (SMap.getD d pred 0 +
              SMap.getD sigma pred 0 / SMap.getD sigma current 1 *
                (1 + SMap.getD d current 0)))
        acc.1
      let btw2 :=
        if current ≠ source then
          SMap.set acc.2 current (SMap.getD acc.2 current 0 + SMap.getD dep2 current 0)
        else acc.2
      (dep2, btw2))
    (dep, btw)).2

/-- Modelled from the spec: one source round of Brandes betweenness. -/
def specSource (adj : SMap (SMap ℚ)) (nodes : List String) (fuel : Nat) (btw : SMap ℚ)
    (source : String) : Option (SMap ℚ) :=
  let paths0 : SMap (List String) := nodes.foldl (fun m nd => SMap.set m nd []) []
  let dist0 : SMap Int := nodes.foldl (fun m nd => SMap.set m nd (-1)) []
  let dep0 : SMap ℚ := nodes.foldl (fun m nd => SMap.set m nd 0) []
  let sigma0 : SMap ℚ := nodes.foldl (fun m nd => SMap.set m nd 0) []
  let dist1 := SMap.set dist0 source 0
  let sigma1 := SMap.set sigma0 source 1
  match specLoop adj fuel
      { queue := [source], dist := dist1, paths := paths0, sigma := sigma1 } [] with
  | none => none
  | some res => some (specAccum source res.2.paths res.2.sigma res.1.reverse dep0 btw)

/-- Modelled from the spec: Brandes betweenness centrality over the
unweighted undirected graph, normalized by `2 / ((n - 1) (n - 2))` for more
than two nodes — the value the claim says the analyzer computes. -/
def specBrandesBetweenness (nodes : List String) (adj : SMap (SMap ℚ)) (fuel : Nat) :
    Option (SMap ℚ) :=
  let btw0 : SMap ℚ := nodes.foldl (fun m nd => SMap.set m nd 0) []
  let acc := nodes.foldl
    (fun acc src => acc.bind (fun b => specSource adj nodes fuel b src)) (some btw0)
  let n := nodes.length
  let norm : ℚ := if 2 < n then 2 / (((n : ℚ) - 1) * ((n : ℚ) - 2)) else 1
  acc.map (fun m => m.map (fun kv => (kv.1, kv.2 * norm)))

/-! ### Search engine (`SearchEngine`) -/

structure RankingWeights where
  semantic : ℚ
  tags : ℚ
  recency : ℚ
  backlinks : ℚ
deriving DecidableEq, Repr

structure EmbVec where
  values : List ℚ
  dimension : Nat
deriving DecidableEq, Repr

/-- The abstract `EmbeddingProvider` the search engine is constructed with:
an embedding function and a similarity function. The concrete providers
implement `calcSim` as real-valued cosine similarity; the engine only calls
it as a black box, so it is a field here and the theorems instantiate it with
functions agreeing with cosine on the vectors they use. -/
structure EmbProvider where
  embed : String → EmbVec
  calcSim : EmbVec → EmbVec → ℚ

/-- The `IndexedFile` fields the search engine reads. `lastModified` is in
epoch milliseconds; an absent `embeddings` array is modelled as `[]`, which
the engine treats identically. -/
structure IndexedFile where
  relativePath : String
  lastModified : ℚ
  frontTitle : Option String
  plainText : String
  tags : List String
  embeddings : List EmbVec
deriving Repr

inductive MatchKind where
  | content
  | title
  | tag
  | frontmatter
deriving DecidableEq, Repr

structure MatchItem where
  kind : MatchKind
  text : String
  context : Option String
  position : Option Nat
deriving DecidableEq, Repr

structure SearchRel where
  semantic : ℚ
  tags : ℚ
  recency : ℚ
  backlinks : ℚ
  pathRelevance : ℚ
deriving DecidableEq, Repr

structure SearchResultM where
  file : IndexedFile
  score : ℚ
  relevance : SearchRel
  matchItems : List MatchItem
deriving Repr

structure SearchFiltersM where
  tags : Option (List String)
  tagMode : Option TagMode
  dateStart : Option ℚ
  dateEnd : Option ℚ
deriving Repr

structure SearchQueryM where
  text : String
  filters : Option SearchFiltersM
  limit : Option Nat
  threshold : Option ℚ
deriving Repr

/-- Configuration and collaborator state of a `SearchEngine` instance. -/
structure SearchEngineState where
  provider : Option EmbProvider
  tagEngine : TagState
  backlinks : SMap BacklinkInfo
  weights : RankingWeights
  maxResults : Nat
  simThreshold : ℚ

/-- JavaScript `a || b` on numbers: 0 is falsy. -/
def jsOrQ (o : Option ℚ) (d : ℚ) : ℚ :=
  match o with
  | some v => if v = 0 then d else v
  | none => d

/-- JavaScript `a || b` on counts: 0 is falsy. -/
def jsOrNat (o : Option Nat) (d : Nat) : Nat :=
  match o with
  | some v => if v = 0 then d else v
  | none => d

/-- JavaScript `file.frontmatter.title || ''`. -/
def titleOrEmpty (f : IndexedFile) : String :=
  match f.frontTitle with
  | some t => t
  | none => ""

/-- Occurrence loop of `SearchEngine.findTermMatches`: repeatedly take
`indexOf(lowerTerm, index)` and advance by the term length, collecting one
match (with up to 50 characters of context either side) per occurrence. The
fuel bounds the iterations; `none` means the source loop is still running
after that many of them — for an empty term the index never advances and no
fuel suffices. -/
def findTermMatchesGo (kind : MatchKind) (rawTerm : String)
    (needle lowerText textChars : List Char) :
    Nat → Nat → List MatchItem → Option (List MatchItem)
  | 0, _, _ => none
  | fuel + 1, index, acc =>
    match indexOfFrom needle lowerText index with
    | none => some acc
    | some i =>
      let context := substringJs textChars (i - 50) (min textChars.length (i + needle.length + 50))
      findTermMatchesGo kind rawTerm needle lowerText textChars fuel (i + needle.length)
        (acc ++ [{ kind := kind, text := rawTerm, context := some context, position := some i }])

/-- `SearchEngine.findTermMatches`. -/
def findTermMatches (term text : String) (kind : MatchKind) (fuel : Nat) :
    Option (List MatchItem) :=
  findTermMatchesGo kind term (lowerStr term).data (lowerStr text).data text.data fuel 0 []

/-- `SearchEngine.textSearch`: term occurrences in content weigh 1, in the
frontmatter title 3, in tags 2; the per-file sum is divided by the term count
and capped at 1. -/
def textSearch (query : String) (files : List IndexedFile) (maxResults fuel : Nat) :
    Option (List SearchResultM) :=
  let queryTerms := (splitWs (lowerStr query)).filter (fun t => 0 < t.length)
  let scanned := files.foldl
    (fun acc f =>
      acc.bind (fun results =>
        let folded := queryTerms.foldl
          (fun acc2 term =>
            acc2.bind (fun st =>
              (findTermMatches term f.plainText MatchKind.content fuel).bind (fun cm =>
                (findTermMatches term (titleOrEmpty f) MatchKind.title fuel).map (fun tm =>
                  let tagMs := (f.tags.filter (fun tg => strIncludes (lowerStr tg) term)).map
                    (fun tg =>
                      ({ kind := MatchKind.tag, text := tg, context := none,
                         position := none } : MatchItem))
                  (st.1 ++ cm ++ tm ++ tagMs,
                    st.2 + cm.length * 1 + tm.length * 3 + tagMs.length * 2)))))
          (some (([] : List MatchItem), (0 : Nat)))
        folded.map (fun st =>
          if st.1.length ≠ 0 then
            let normalizedScore := min ((st.2 : ℚ) / (queryTerms.length : ℚ)) 1
            results ++ [{ file := f, score := normalizedScore,
                          relevance :=
                            { semantic := 0, tags := 0, recency := 0, backlinks := 0,
                              pathRelevance := normalizedScore },
                          matchItems := st.1 }]
          else results)))
    (some ([] : List SearchResultM))
  scanned.map (fun rs => (sortDesc (fun r => r.score) rs).take maxResults)

/-- `SearchEngine.semanticSearch`: best cosine score over the chunk
embeddings of each candidate, kept when it reaches the similarity threshold,
sorted descending and truncated. -/
def semanticSearch (p : EmbProvider) (query : String) (files : List IndexedFile)
    (limit : Option Nat) (maxResults : Nat) (simThreshold : ℚ) : List SearchResultM :=
  let queryEmbedding := p.embed query
  let results := files.foldl
    (fun acc f =>
      if f.embeddings.length = 0 then acc
      else
        let bestScore := f.embeddings.foldl
          (fun b e => max b (p.calcSim queryEmbedding e)) 0
        if simThreshold ≤ bestScore then
          acc ++ [{ file := f, score := bestScore,
                    relevance :=
                      { semantic := bestScore, tags := 0, recency := 0, backlinks := 0,
                        pathRelevance := 0 },
                    matchItems := [({ kind := MatchKind.content, text := query,
                                      context := some (substringJs f.plainText.data 0 200),
                                      position := none } : MatchItem)] }]
        else acc)
    []
  (sortDesc (fun r => r.score) results).take (jsOrNat limit maxResults)

/-- `SearchEngine.calculateSemanticScore`, verbatim: it ignores both
arguments and returns 0. -/
def calculateSemanticScore (_f : IndexedFile) (_query : String) : ℚ :=
  0

/-- `SearchEngine.calculateTagScore`: query-term substring matches against
the tags of the file, normalized by the term count and capped at 1. The query
is split without dropping empty terms. -/
def calculateTagScore (f : IndexedFile) (query : String) : ℚ :=
  if f.tags.length = 0 then 0
  else
    let queryTerms := splitWs (lowerStr query)
    let matchCount := f.tags.foldl
      (fun m tg => m + (queryTerms.filter (fun term => strIncludes (lowerStr tg) term)).length)
      0
    min ((matchCount : ℚ) / (queryTerms.length : ℚ)) 1

/-- `SearchEngine.calculateRecencyScore`: one minus the age in days over 365,
floored at 0. -/
def calculateRecencyScore (f : IndexedFile) (now : ℚ) : ℚ :=
  let daysSinceModified := (now - f.lastModified) / (1000 * 60 * 60 * 24)
  max 0 (1 - daysSinceModified / 365)

/-- `SearchEngine.calculatePathRelevance`. -/
def calculatePathRelevance (f : IndexedFile) (query : String) : ℚ :=
  let pathLower := lowerStr f.relativePath
  let queryLower := lowerStr query
  if strIncludes pathLower queryLower then 1
  else
    let queryTerms := splitWs queryLower
    let matchCount := (queryTerms.filter (fun term => strIncludes pathLower term)).length
    (matchCount : ℚ) / (queryTerms.length : ℚ)

/-- `SearchEngine.calculateRelevance`. -/
def calculateRelevance (f : IndexedFile) (query : String) (pageRanks : SMap ℚ)
    (now : ℚ) : SearchRel :=
  { semantic := calculateSemanticScore f query,
    tags := calculateTagScore f query,
    recency := calculateRecencyScore f now,
    backlinks := SMap.getD pageRanks f.relativePath 0,
    pathRelevance := calculatePathRelevance f query }

/-- `SearchEngine.calculateFinalScore`: the configured weighted sum of the
semantic, tag, recency and backlink signals. -/
def calculateFinalScore (w : RankingWeights) (rel : SearchRel) : ℚ :=
  rel.semantic * w.semantic + rel.tags * w.tags + rel.recency * w.recency +
    rel.backlinks * w.backlinks

/-- `SearchEngine.extractMatches`: the query is split without dropping empty
terms, and each term is matched against the content and the truthy title. -/
def extractMatches (f : IndexedFile) (query : String) (fuel : Nat) :
    Option (List MatchItem) :=
  let queryTerms := splitWs (lowerStr query)
  queryTerms.foldl
    (fun acc term =>
      acc.bind (fun ms =>
        (findTermMatches term f.plainText MatchKind.content fuel).bind (fun cm =>
          match f.frontTitle with
          | some t =>
            if t ≠ "" then
              (findTermMatches term t MatchKind.title fuel).map (fun tm => ms ++ cm ++ tm)
            else some (ms ++ cm)
          | none => some (ms ++ cm))))
    (some ([] : List MatchItem))

/-- `SearchEngine.scoreAndRankFiles`: recompute the relevance of every file
from scratch (with the stubbed semantic score), keep files whose weighted
score reaches the threshold (`query.threshold || similarityThreshold`), and
sort descending. -/
def scoreAndRankFiles (st : SearchEngineState) (files : List IndexedFile)
    (query : String) (sq : SearchQueryM) (now : ℚ) (fuel : Nat) :
    Option (List SearchResultM) :=
  let pageRanks := calculatePageRankDefault st.backlinks
  let scanned := files.foldl
    (fun acc f =>
      acc.bind (fun results =>
        let rel := calculateRelevance f query pageRanks now
        let finalScore := calculateFinalScore st.weights rel
        if jsOrQ sq.threshold st.simThreshold ≤ finalScore then
          (extractMatches f query fuel).map (fun ms =>
            results ++ [{ file := f, score := finalScore, relevance := rel, matchItems := ms }])
        else some results))
    (some ([] : List SearchResultM))
  scanned.map (fun rs => sortDesc (fun r => r.score) rs)

/-- `SearchEngine.combineSearchResults`: text results first, then semantic
results either merged into the existing entry (adopting the semantic score
and appending the matches) or inserted; the merged relevance is then
discarded because only the files are passed on to `scoreAndRankFiles`. -/
def combineSearchResults (st : SearchEngineState) (textResults semanticResults : List SearchResultM)
    (query : String) (sq : SearchQueryM) (now : ℚ) (fuel : Nat) :
    Option (List SearchResultM) :=
  let fs0 := textResults.foldl (fun m r => SMap.set m r.file.relativePath r) []
  let fs1 := semanticResults.foldl
    (fun m r =>
      match SMap.find? m r.file.relativePath with
      | some existing =>
        SMap.set m r.file.relativePath
          { existing with
            relevance := { existing.relevance with semantic := r.relevance.semantic },
            matchItems := existing.matchItems ++ r.matchItems }
      | none => SMap.set m r.file.relativePath r)
    fs0
  scoreAndRankFiles st (fs1.map (fun kv => kv.2.file)) query sq now fuel

/-- `SearchEngine.performHybridSearch`: text search, semantic search when a
provider exists, combination, then sort and truncate. -/
def performHybridSearch (st : SearchEngineState) (files : List IndexedFile)
    (query : String) (sq : SearchQueryM) (now : ℚ) (fuel : Nat) :
    Option (List SearchResultM) :=
  (textSearch query files st.maxResults fuel).bind (fun textResults =>
    let semanticResults :=
      match st.provider with
      | none => []
      | some p => semanticSearch p query files none st.maxResults st.simThreshold
    (combineSearchResults st textResults semanticResults query sq now fuel).map
      (fun combined => (sortDesc (fun r => r.score) combined).take (jsOrNat sq.limit st.maxResults)))

/-- `SearchEngine.applyFilters` for the tag and date-range filters (the
path-pattern filter builds JavaScript `RegExp` values and is outside this
model; the claims do not exercise it). -/
def applyFilters (st : SearchEngineState) (files : List IndexedFile)
    (filters : Option SearchFiltersM) : List IndexedFile :=
  match filters with
  | none => files
  | some flt =>
    let l1 :=
      match flt.tags with
      | some ts =>
        if 0 < ts.length then
          let tagged := getFilesByTags st.tagEngine ts (flt.tagMode.getD TagMode.and)
          files.filter (fun (f : IndexedFile) => f.relativePath ∈ tagged)
        else files
      | none => files
    l1.filter (fun (f : IndexedFile) =>
      (match flt.dateStart with
       | some start => decide (start ≤ f.lastModified)
       | none => true) &&
      (match flt.dateEnd with
       | some stop => decide (f.lastModified ≤ stop)
       | none => true))

/-- `SearchEngine.search`: filter, then either the empty-query scoring path
or the hybrid search. -/
def searchM (st : SearchEngineState) (sq : SearchQueryM) (files : List IndexedFile)
    (now : ℚ) (fuel : Nat) : Option (List SearchResultM) :=
  let candidates := applyFilters st files sq.filters
  if candidates.length = 0 then some []
  else
    let textQuery := trimStr sq.text
    if textQuery = "" then scoreAndRankFiles st candidates "" sq now fuel
    else performHybridSearch st candidates textQuery sq now fuel

/-! ### Specification-side notions used to state the claims -/

/-- Walks over the undirected union adjacency the traversal operations use:
`Walk m a c n` means the engine can step from `a` to `c` along `n` neighbor
edges. -/
inductive Walk (m : SMap BacklinkInfo) : String → String → Nat → Prop
  | nil (v : String) : Walk m v v 0
  | cons {a b c : String} {n : Nat} (hab : b ∈ nbrs m a) (h : Walk m b c n) :
      Walk m a c (n + 1)

/-- A route list is a path from `s` to `t` along the neighbor relation. -/
def RouteOk (m : SMap BacklinkInfo) (s t : String) (p : List String) : Prop :=
  p.head? = some s ∧ p.getLast? = some t ∧
    List.Chain' (fun a b => b ∈ nbrs m a) p

/-- Queue-entry invariant of the shortest-path search: the stored route is a
route from the source to the entry node whose edge count is minimal among all
walks to that node. -/
def EntryOk (m : SMap BacklinkInfo) (s : String) (e : String × List String) : Prop :=
  e.2 ≠ [] ∧ RouteOk m s e.1 e.2 ∧ ∀ n, Walk m s e.1 n → e.2.length ≤ n + 1

/-- Loop invariant of `getShortestPath`: the queue holds minimal routes with
sorted lengths spanning at most two levels, queue nodes are visited, fully
expanded visited nodes at relevant depth have all neighbors visited, and the
target was never visited. -/
structure BfsInv (m : SMap BacklinkInfo) (s t : String) (D : Nat)
    (Q : List (String × List String)) (vis : List String) : Prop where
  entries : ∀ e ∈ Q, EntryOk m s e
  sorted : List.Pairwise (fun (a b : String × List String) => a.2.length ≤ b.2.length) Q
  bounded : ∀ f, Q.head? = some f → ∀ e ∈ Q, e.2.length ≤ f.2.length + 1
  nodesVis : ∀ e ∈ Q, e.1 ∈ vis
  sVis : s ∈ vis
  expanded : ∀ w ∈ vis, (∀ e ∈ Q, e.1 ≠ w) →
    ∀ n, Walk m s w n → n + 1 ≤ D → ∀ x ∈ nbrs m w, x ∈ vis
  tNotVis : t ∉ vis

/-- Multiset count of neighbor occurrences not yet visited; together with the
queue length it strictly decreases at every loop iteration. -/
def unseenCount (m : SMap BacklinkInfo) (vis : List String) : Nat :=
  (m.map (fun kv => ((nbrsOf kv.2 kv.1).filter (fun x => decide (¬ x ∈ vis))).length)).sum

/-- Termination measure of the shortest-path queue loop. -/
def muBfs (m : SMap BacklinkInfo) (Q : List (String × List String))
    (vis : List String) : Nat :=
  Q.length + unseenCount m vis

/-- Total outgoing list of a document in the backlinks map (absent entries
read as empty). -/
def outOf (m : SMap BacklinkInfo) (k : String) : List LinkRef :=
  (SMap.getD m k { outgoing := [], incoming := [] }).outgoing

/-- Total incoming list of a document in the backlinks map. -/
def incOf (m : SMap BacklinkInfo) (k : String) : List LinkRef :=
  (SMap.getD m k { outgoing := [], incoming := [] }).incoming

/-- Bidirectional consistency of the link index: a document's outgoing link
resolves to a target exactly when the target's incoming list carries a
reciprocal entry naming that document as its source. -/
def LinkInv (m : SMap BacklinkInfo) : Prop :=
  (∀ src, ∀ l ∈ outOf m src, ∃ e ∈ incOf m (resolveTargetPath l.target src), e.target = src) ∧
    (∀ tgt, ∀ e ∈ incOf m tgt, ∃ l ∈ outOf m (e.target), resolveTargetPath l.target e.target = tgt)

/-- Backlink-engine states reachable from the empty engine through public
`updateFileLinks` calls. -/
inductive ReachB : BState → Prop
  | empty : ReachB emptyBState
  | step (st : BState) (fp : String) (links : List LinkRef) (h : ReachB st) :
      ReachB (updateFileLinks st fp links)

/-- Reciprocal incoming entry produced for a link of a source document. -/
def recipOf (np : String) (l : LinkRef) : LinkRef :=
  { target := np, text := l.text, line := l.line, kind := l.kind }

/-! ### Concrete instances used by the claims -/

/-- A wikilink with empty display text on line 1. -/
def lk (t : String) : LinkRef :=
  { target := t, text := "", line := 1, kind := LinkKind.wikilink }

/-- Graph for the related-files claim: `a → b`, `a → x`, `b → c`, `c → x`. -/
def exRelState : BState :=
  updateFileLinks
    (updateFileLinks (updateFileLinks emptyBState "a" [lk "b", lk "x"]) "b" [lk "c"])
    "c" [lk "x"]

/-- Graph of the shortest-path claim example: `a → b`, `b → c`, `a → c`. -/
def exSpState : BState :=
  updateFileLinks (updateFileLinks emptyBState "a" [lk "b", lk "c"]) "b" [lk "c"]

/-- State for the link-consistency counterexample: `a` links to `b`, then `b`
is removed while the broken link is retained. -/
def exC5State : BState :=
  removeFileB (updateFileLinks emptyBState "a" [lk "b"]) "b"

/-- Two documents linking to each other (a dangling-free graph). -/
def exPrState : BState :=
  updateFileLinks (updateFileLinks emptyBState "a" [lk "b"]) "b" [lk "a"]

/-- Tag state for the orphaned-tag claim: file `f.md` first carries tag `a`
alone, then its tags are replaced by `b`. -/
def exC4State : TagState :=
  updateFileTags (addTags emptyTagState "f.md" ["a"] 0) "f.md" ["b"] 1

/-- Tag state for the suggestion-ranking claim: `a/b` and `c` co-occur once
on `f1`, and the parent tag `a` is indexed through `f2`. -/
def exC9State : TagState :=
  addTags (addTags emptyTagState "f1" ["a/b", "c"] 0) "f2" ["a"] 1

/-- LRU cache sized 1 after inserting the empty-string key and then a second
key at a later time. -/
def exC6Cache : LRUCache :=
  lruSet (lruSet { maxSize := 1, cache := [] } "" [1] 1) "a" [1] 2

/-- Nodes of the four-cycle betweenness counterexample. -/
def sqNodes : List String :=
  ["a", "b", "c", "d"]

/-- Undirected adjacency of the four-cycle `a - b - c - d - a`. -/
def sqAdj : SMap (SMap ℚ) :=
  buildAdjacency sqNodes [("a", "b"), ("b", "c"), ("c", "d"), ("d", "a")]

/-- Dot product; equals cosine similarity for the unit vectors the semantic
counterexample uses. -/
def dotQ (a b : List ℚ) : ℚ :=
  ((a.zip b).map (fun p => p.1 * p.2)).sum

/-- Provider instantiation for the hybrid-search claim: every embedding is
the unit vector `[1]`, on which the dot product coincides with cosine
similarity. -/
def exProvider : EmbProvider :=
  { embed := fun _ => { values := [1], dimension := 1 },
    calcSim := fun a b => dotQ a.values b.values }

/-- Document matching both text search and semantic search for the query
`hello`. -/
def exC1File : IndexedFile :=
  { relativePath := "doc.md", lastModified := 0, frontTitle := none,
    plainText := "hello", tags := [], embeddings := [{ values := [1], dimension := 1 }] }

/-- Engine configured with an embedding provider and full weight on the
semantic signal. -/
def exC1Engine : SearchEngineState :=
  { provider := some exProvider, tagEngine := emptyTagState, backlinks := [],
    weights := { semantic := 1, tags := 0, recency := 0, backlinks := 0 },
    maxResults := 100, simThreshold := 7 / 10 }

def exC1Query : SearchQueryM :=
  { text := "hello", filters := none, limit := none, threshold := none }

/-- Tagged document passing the empty-query threshold through its tag
signal. -/
def exC10File : IndexedFile :=
  { relativePath := "doc.md", lastModified := 0, frontTitle := none,
    plainText := "hi", tags := ["x"], embeddings := [] }

/-- Engine weighting only the tag signal, with the default similarity
threshold 0.7. -/
def exC10Engine : SearchEngineState :=
  { provider := none, tagEngine := emptyTagState, backlinks := [],
    weights := { semantic := 0, tags := 1, recency := 0, backlinks := 0 },
    maxResults := 100, simThreshold := 7 / 10 }

def exC10Query : SearchQueryM :=
  { text := "", filters := none, limit := none, threshold := none }

/-! ### Claim theorems: concrete evaluations -/

/-- C1: the hybrid-search claim fails on the code. For the query `hello` the
document is in both result sets (its semantic similarity is 1, its text score
is 1, and the weights put full weight on the semantic signal), so the claim
predicts a final score of `w_semantic · 1 = 1 ≥ 0.7` and a returned result;
the code recomputes relevance through the stubbed `calculateSemanticScore`,
gets final score 0, and returns no results at all. -/
theorem c1_semantic_score_discarded :
    (semanticSearch exProvider "hello" [exC1File] none 100 (7 / 10)).map
        (fun r => r.relevance.semantic) = [1] ∧
    (textSearch "hello" [exC1File] 100 10).map (fun rs => rs.map (fun r => r.score)) =
      some [1] ∧
    searchM exC1Engine exC1Query [exC1File] 0 10 = some [] := by
  refine ⟨by with_unfolding_all rfl, by with_unfolding_all rfl, by with_unfolding_all rfl⟩

/-- C2: the related-files claim fails on the code. In the graph `a → b`,
`a → x`, `b → c`, `c → x` the document `x` is one hop from `a` (witnessed by
a one-edge walk), but the depth-first traversal reaches `x` through
`b, c` first, marks it visited, and records hop distance 3. -/
theorem c2_related_distance_not_minimal :
    findRelatedFiles exRelState "a" 5 100 = some [("b", 1), ("c", 2), ("x", 3)] ∧
    Walk exRelState.backlinks "a" "x" 1 := by
  refine ⟨by with_unfolding_all rfl, Walk.cons ?_ (Walk.nil "x")⟩
  with_unfolding_all decide

/-- C3: the betweenness claim fails on the code. On the four-cycle
`a - b - c - d - a` the analyzer assigns node `b` the normalized value `2/3`,
while Brandes' algorithm (with shortest-path counting, modelled from the
spec) assigns `1/3`: the dependency accumulation in the source omits the
`σ(pred)/σ(w)` path-count ratio. -/
theorem c3_betweenness_deviates_from_brandes :
    (calculateBetweennessCentrality sqNodes sqAdj 50).map
        (fun mm => SMap.getD mm "b" 0) = some (2 / 3) ∧
    (specBrandesBetweenness sqNodes sqAdj 50).map
        (fun mm => SMap.getD mm "b" 0) = some (1 / 3) := by
  refine ⟨by with_unfolding_all rfl, by with_unfolding_all rfl⟩

/-- C4: the orphaned-tag claim fails on the code. After `f.md` carries tag
`a` alone and its tags are replaced by `["b"]` through `updateFileTags`, the
entry for `a` survives with an empty document set (and is counted by
`getTagCount`), because `updateFileTags` never invokes the cleanup. -/
theorem c4_update_leaves_empty_tag_entry :
    getTagCount exC4State = 2 ∧
    SMap.find? exC4State.tags "a" =
      some { files := [], coOccurring := [], created := 0, lastSeen := 0,
             hierarchy := ["a"] } := by
  refine ⟨by with_unfolding_all rfl, by with_unfolding_all rfl⟩

/-- C5 counterexample: after `updateFileLinks a [b]` followed by
`removeFile b`, the outgoing link of `a` still resolves to `b` (broken links
are retained by design) while the incoming list of `b` is gone, so the
claimed equivalence fails for sequences containing `removeFile`. -/
theorem c5_remove_breaks_bidirectionality :
    (∃ l ∈ outOf exC5State.backlinks "a", resolveTargetPath l.target "a" = "b") ∧
    incOf exC5State.backlinks "b" = [] := by
  refine ⟨⟨lk "b", by with_unfolding_all decide, by with_unfolding_all decide⟩,
    by with_unfolding_all rfl⟩

/-- C6: the cache-capacity claim fails on the code. With capacity 1, setting
key `""` and then key `"a"` at a later time leaves two entries: the eviction
scan uses the empty string as its falsy sentinel, so the oldest entry (whose
key is `""`) is never deleted. -/
theorem c6_cache_exceeds_capacity :
    exC6Cache.maxSize = 1 ∧ exC6Cache.cache.length = 2 ∧
    SMap.hasKey exC6Cache.cache "" = true ∧ SMap.hasKey exC6Cache.cache "a" = true := by
  refine ⟨by with_unfolding_all rfl, by with_unfolding_all rfl, by with_unfolding_all rfl,
    by with_unfolding_all rfl⟩

/-- C7 counterexample: with no indexed documents the conditions of the claim
hold vacuously, yet `calculatePageRank` returns an empty map whose values sum
to 0, not 1. -/
theorem c7_empty_graph_ranks_sum_zero :
    calculatePageRank [] 20 (17 / 20) = [] ∧
    SMap.sumVals (calculatePageRank [] 20 (17 / 20)) ≠ 1 := by
  refine ⟨by with_unfolding_all rfl, by with_unfolding_all decide⟩

/-! ### Map lemmas -/

theorem SMap.find?_set_self {α : Type} (m : SMap α) (k : String) (v : α) :
    SMap.find? (SMap.set m k v) k = some v := by
  induction m with
  | nil => simp [SMap.set, SMap.find?]
  | cons kv rest ih =>
    obtain ⟨k2, v2⟩ := kv
    by_cases h : k2 = k
    · simp [SMap.set, SMap.find?, h]
    · simp [SMap.set, SMap.find?, h, ih]

theorem SMap.find?_set_ne {α : Type} (m : SMap α) (k k2 : String) (v : α)
    (h : k2 ≠ k) : SMap.find? (SMap.set m k v) k2 = SMap.find? m k2 := by
  have hne : ¬ k = k2 := fun hk => h hk.symm
  induction m with
  | nil => simp [SMap.set, SMap.find?, hne]
  | cons kv rest ih =>
    obtain ⟨k3, v3⟩ := kv
    by_cases h3 : k3 = k
    · subst h3
      simp [SMap.set, SMap.find?, hne]
    · by_cases h4 : k3 = k2
      · subst h4
        simp [SMap.set, SMap.find?, h3]
      · simp [SMap.set, SMap.find?, h3, h4, ih]

theorem SMap.keys_set_of_mem {α : Type} (m : SMap α) (k : String) (v : α)
    (h : k ∈ SMap.keys m) : SMap.keys (SMap.set m k v) = SMap.keys m := by
  induction m with
  | nil => simp [SMap.keys] at h
  | cons kv rest ih =>
    obtain ⟨k2, v2⟩ := kv
    by_cases h2 : k2 = k
    · simp [SMap.set, h2, SMap.keys]
    · have hm : k ∈ SMap.keys rest := by
        simp only [SMap.keys, List.map_cons, List.mem_cons] at h
        rcases h with h | h
        · exact absurd h.symm h2
        · simpa [SMap.keys] using h
      have hstep : SMap.keys (SMap.set ((k2, v2) :: rest) k v) =
          k2 :: SMap.keys (SMap.set rest k v) := by
        simp [SMap.set, h2, SMap.keys]
      rw [hstep, ih hm]
      rfl

theorem SMap.set_eq_append {α : Type} (m : SMap α) (k : String) (v : α)
    (h : ¬ k ∈ SMap.keys m) : SMap.set m k v = m ++ [(k, v)] := by
  induction m with
  | nil => simp [SMap.set]
  | cons kv rest ih =>
    obtain ⟨k2, v2⟩ := kv
    simp only [SMap.keys, List.map_cons, List.mem_cons] at h
    push_neg at h
    have hne : ¬ k2 = k := fun hk => h.1 hk.symm
    simp [SMap.set, hne, ih (by simpa [SMap.keys] using h.2)]

theorem SMap.sumVals_append (m1 m2 : SMap ℚ) :
    SMap.sumVals (m1 ++ m2) = SMap.sumVals m1 + SMap.sumVals m2 := by
  simp [SMap.sumVals]

theorem SMap.sumVals_set_bump (m : SMap ℚ) (k : String) (c : ℚ)
    (h : k ∈ SMap.keys m) :
    SMap.sumVals (SMap.set m k (SMap.getD m k 0 + c)) = SMap.sumVals m + c := by
  induction m with
  | nil => simp [SMap.keys] at h
  | cons kv rest ih =>
    obtain ⟨k2, v2⟩ := kv
    by_cases h2 : k2 = k
    · simp only [SMap.set, if_pos h2, SMap.getD, SMap.find?, SMap.sumVals, List.map_cons,
        List.sum_cons, if_pos h2, Option.getD_some]
      ring
    · have hm : k ∈ SMap.keys rest := by
        simp [SMap.keys] at h
        rcases h with h | h
        · exact absurd h.symm h2
        · simpa [SMap.keys] using h
      have hg : SMap.getD ((k2, v2) :: rest) k 0 = SMap.getD rest k 0 := by
        simp [SMap.getD, SMap.find?, h2]
      simp only [SMap.set, if_neg h2, SMap.sumVals, List.map_cons, List.sum_cons, hg]
      have := ih hm
      simp only [SMap.sumVals] at this
      rw [this]
      ring

/-- Seeding fold of `calculatePageRank`: setting a constant on fresh, nodup
keys appends them and adds `length · v` to the value sum. -/
theorem SMap.foldl_set_const_spec (v : ℚ) :
    ∀ (files : List String) (init : SMap ℚ), files.Nodup →
      (∀ f ∈ files, ¬ f ∈ SMap.keys init) →
      SMap.keys (files.foldl (fun acc f => SMap.set acc f v) init) =
          SMap.keys init ++ files ∧
        SMap.sumVals (files.foldl (fun acc f => SMap.set acc f v) init) =
          SMap.sumVals init + files.length * v := by
  intro files
  induction files with
  | nil => intro init _ _; simp
  | cons f rest ih =>
    intro init hnd hfresh
    have hset : SMap.set init f v = init ++ [(f, v)] :=
      SMap.set_eq_append init f v (hfresh f (by simp))
    have hnd2 : rest.Nodup := (List.nodup_cons.mp hnd).2
    have hfresh2 : ∀ x ∈ rest, ¬ x ∈ SMap.keys (SMap.set init f v) := by
      intro x hx
      rw [hset]
      simp only [SMap.keys, List.map_append, List.mem_append]
      push_neg
      constructor
      · simpa [SMap.keys] using hfresh x (by simp [hx])
      · simp only [List.map_cons, List.map_nil, List.mem_cons]
        push_neg
        exact ⟨fun he => (List.nodup_cons.mp hnd).1 (he ▸ hx), by simp⟩
    have := ih (SMap.set init f v) hnd2 hfresh2
    simp only [List.foldl_cons]
    refine ⟨?_, ?_⟩
    · rw [this.1, hset]
      simp [SMap.keys]
    · rw [this.2, hset, SMap.sumVals_append]
      simp [SMap.sumVals]
      ring

/-- Contribution fold of one source document: adding `c` at `L.length`
resolved targets, all of which are keys, preserves the keys and adds
`L.length · c` to the value sum. -/
theorem SMap.foldl_bump_spec (c : ℚ) (src : String) :
    ∀ (L : List LinkRef) (acc : SMap ℚ),
      (∀ l ∈ L, resolveTargetPath l.target src ∈ SMap.keys acc) →
      SMap.keys (L.foldl (fun a l =>
          SMap.set a (resolveTargetPath l.target src)
            (SMap.getD a (resolveTargetPath l.target src) 0 + c)) acc) = SMap.keys acc ∧
        SMap.sumVals (L.foldl (fun a l =>
          SMap.set a (resolveTargetPath l.target src)
            (SMap.getD a (resolveTargetPath l.target src) 0 + c)) acc) =
          SMap.sumVals acc + L.length * c := by
  intro L
  induction L with
  | nil => intro acc _; simp
  | cons l rest ih =>
    intro acc hmem
    have hk : resolveTargetPath l.target src ∈ SMap.keys acc := hmem l (by simp)
    have hkeys := SMap.keys_set_of_mem acc (resolveTargetPath l.target src)
      (SMap.getD acc (resolveTargetPath l.target src) 0 + c) hk
    have hsum := SMap.sumVals_set_bump acc (resolveTargetPath l.target src) c hk
    have hmem2 : ∀ l2 ∈ rest, resolveTargetPath l2.target src ∈
        SMap.keys (SMap.set acc (resolveTargetPath l.target src)
          (SMap.getD acc (resolveTargetPath l.target src) 0 + c)) := by
      intro l2 hl2
      rw [hkeys]
      exact hmem l2 (by simp [hl2])
    have := ih _ hmem2
    simp only [List.foldl_cons]
    refine ⟨by rw [this.1, hkeys], ?_⟩
    rw [this.2, hsum]
    simp [List.length_cons]
    ring

/-- The value sum of a nodup-keyed map equals the sum of defaulted lookups
over its keys. -/
theorem SMap.sum_getD_keys :
    ∀ (ranks : SMap ℚ), (SMap.keys ranks).Nodup →
      ((SMap.keys ranks).map (fun k => SMap.getD ranks k 0)).sum = SMap.sumVals ranks := by
  intro ranks
  induction ranks with
  | nil => intro _; simp [SMap.keys, SMap.sumVals]
  | cons kv rest ih =>
    intro hnd
    obtain ⟨k0, v0⟩ := kv
    have hnd2 : (SMap.keys rest).Nodup := by
      simpa [SMap.keys] using (List.nodup_cons.mp (by simpa [SMap.keys] using hnd)).2
    have hk0 : ¬ k0 ∈ SMap.keys rest :=
      (List.nodup_cons.mp (by simpa [SMap.keys] using hnd)).1
    have hmap : ∀ k ∈ SMap.keys rest,
        SMap.getD ((k0, v0) :: rest) k 0 = SMap.getD rest k 0 := by
      intro k hk
      have : k0 ≠ k := fun he => hk0 (he ▸ hk)
      simp [SMap.getD, SMap.find?, this]
    calc ((SMap.keys ((k0, v0) :: rest)).map
            (fun k => SMap.getD ((k0, v0) :: rest) k 0)).sum
        = SMap.getD ((k0, v0) :: rest) k0 0 +
            ((SMap.keys rest).map (fun k => SMap.getD ((k0, v0) :: rest) k 0)).sum := by
          simp [SMap.keys]
      _ = v0 + ((SMap.keys rest).map (fun k => SMap.getD rest k 0)).sum := by
          rw [List.map_congr_left hmap]
          simp [SMap.getD, SMap.find?]
      _ = v0 + SMap.sumVals rest := by rw [ih hnd2]
      _ = SMap.sumVals ((k0, v0) :: rest) := by simp [SMap.sumVals]

/-- Redistribution fold of one PageRank iteration over all entries: with no
dangling entries and all resolved targets among the keys of the accumulator,
the keys persist and the value sum grows by `damping · Σ rank`. -/
theorem prIter_fold_spec (ranks : SMap ℚ) (damping : ℚ) :
    ∀ (g : List (String × BacklinkInfo)) (acc : SMap ℚ),
      (∀ kv ∈ g, kv.2.outgoing ≠ []) →
      (∀ kv ∈ g, ∀ l ∈ kv.2.outgoing, resolveTargetPath l.target kv.1 ∈ SMap.keys acc) →
      SMap.keys (g.foldl
          (fun acc kv =>
            let out := kv.2.outgoing
            if 0 < out.length then
              let contribution := SMap.getD ranks kv.1 0 * damping / (out.length : ℚ)
              out.foldl
                (fun a l =>
                  let tgt := resolveTargetPath l.target kv.1
                  SMap.set a tgt (SMap.getD a tgt 0 + contribution))
                acc
            else acc)
          acc) = SMap.keys acc ∧
        SMap.sumVals (g.foldl
          (fun acc kv =>
            let out := kv.2.outgoing
            if 0 < out.length then
              let contribution := SMap.getD ranks kv.1 0 * damping / (out.length : ℚ)
              out.foldl
                (fun a l =>
                  let tgt := resolveTargetPath l.target kv.1
                  SMap.set a tgt (SMap.getD a tgt 0 + contribution))
                acc
            else acc)
          acc) =
          SMap.sumVals acc + (g.map (fun kv => SMap.getD ranks kv.1 0 * damping)).sum := by
  intro g
  induction g with
  | nil => intro acc _ _; simp
  | cons kv rest ih =>
    intro acc hout htgt
    have houth : kv.2.outgoing ≠ [] := hout kv (by simp)
    have hlen : 0 < kv.2.outgoing.length := List.length_pos.mpr houth
    have hlenq : ((kv.2.outgoing.length : ℚ)) ≠ 0 := by
      exact_mod_cast Nat.pos_iff_ne_zero.mp hlen
    have hb := SMap.foldl_bump_spec
      (SMap.getD ranks kv.1 0 * damping / (kv.2.outgoing.length : ℚ)) kv.1
      kv.2.outgoing acc (htgt kv (by simp))
    simp only [List.foldl_cons, if_pos hlen]
    have htgt2 : ∀ kv2 ∈ rest, ∀ l ∈ kv2.2.outgoing,
        resolveTargetPath l.target kv2.1 ∈ SMap.keys
          (kv.2.outgoing.foldl
            (fun a l =>
              SMap.set a (resolveTargetPath l.target kv.1)
                (SMap.getD a (resolveTargetPath l.target kv.1) 0 +
                  SMap.getD ranks kv.1 0 * damping / (kv.2.outgoing.length : ℚ))) acc) := by
      intro kv2 h2 l hl
      rw [hb.1]
      exact htgt kv2 (by simp [h2]) l hl
    have := ih _ (fun kv2 h2 => hout kv2 (by simp [h2])) htgt2
    refine ⟨by rw [this.1, hb.1], ?_⟩
    rw [this.2, hb.2]
    have hc : (kv.2.outgoing.length : ℚ) *
        (SMap.getD ranks kv.1 0 * damping / (kv.2.outgoing.length : ℚ)) =
        SMap.getD ranks kv.1 0 * damping := by
      field_simp
    simp only [List.map_cons, List.sum_cons]
    rw [hc]
    ring

/-- One PageRank iteration preserves the key set and maps a total mass `s`
to `(1 - damping) + damping · s`. -/
theorem prIter_spec (g : SMap BacklinkInfo) (files : List String) (damping : ℚ)
    (ranks : SMap ℚ)
    (hfiles : files = SMap.keys g) (hnd : files.Nodup) (hne : files ≠ [])
    (hout : ∀ kv ∈ g, kv.2.outgoing ≠ [])
    (htgt : ∀ kv ∈ g, ∀ l ∈ kv.2.outgoing, resolveTargetPath l.target kv.1 ∈ files)
    (hrk : SMap.keys ranks = files) :
    SMap.keys (prIter g files (files.length : ℚ) damping ranks) = files ∧
      SMap.sumVals (prIter g files (files.length : ℚ) damping ranks) =
        (1 - damping) + damping * SMap.sumVals ranks := by
  have hnq : ((files.length : ℚ)) ≠ 0 := by
    exact_mod_cast Nat.pos_iff_ne_zero.mp (List.length_pos.mpr hne)
  have hbase := SMap.foldl_set_const_spec ((1 - damping) / (files.length : ℚ)) files []
    hnd (by simp [SMap.keys])
  have hbkeys : SMap.keys (files.foldl
      (fun acc f => SMap.set acc f ((1 - damping) / (files.length : ℚ))) []) = files := by
    simpa [SMap.keys] using hbase.1
  have hbsum : SMap.sumVals (files.foldl
      (fun acc f => SMap.set acc f ((1 - damping) / (files.length : ℚ))) []) =
      1 - damping := by
    rw [hbase.2]
    have h0 : SMap.sumVals ([] : SMap ℚ) = 0 := rfl
    rw [h0, zero_add]
    field_simp
  have hfold := prIter_fold_spec ranks damping g _ hout
    (by intro kv h2 l hl; rw [hbkeys]; exact htgt kv h2 l hl)
  have hsum2 : (g.map (fun kv => SMap.getD ranks kv.1 0 * damping)).sum =
      damping * SMap.sumVals ranks := by
    have hmm : (g.map (fun kv => SMap.getD ranks kv.1 0 * damping)) =
        ((g.map Prod.fst).map (fun k => SMap.getD ranks k 0 * damping)) := by
      simp [List.map_map]
    rw [hmm]
    have hkk : g.map Prod.fst = SMap.keys ranks := by
      rw [hrk, hfiles]; rfl
    rw [hkk]
    have hnd2 : (SMap.keys ranks).Nodup := by rw [hrk]; exact hnd
    calc ((SMap.keys ranks).map (fun k => SMap.getD ranks k 0 * damping)).sum
        = ((SMap.keys ranks).map (fun k => SMap.getD ranks k 0)).sum * damping :=
          List.sum_map_mul_right _ _ _
      _ = SMap.sumVals ranks * damping := by rw [SMap.sum_getD_keys ranks hnd2]
      _ = damping * SMap.sumVals ranks := by ring
  refine ⟨?_, ?_⟩
  · show SMap.keys (g.foldl _ _) = files
    rw [hfold.1, hbkeys]
  · show SMap.sumVals (g.foldl _ _) = _
    rw [hfold.2, hbsum, hsum2]

/-- The fixed-count PageRank iteration keeps total mass 1. -/
theorem prLoop_spec (g : SMap BacklinkInfo) (files : List String) (damping : ℚ)
    (hfiles : files = SMap.keys g) (hnd : files.Nodup) (hne : files ≠ [])
    (hout : ∀ kv ∈ g, kv.2.outgoing ≠ [])
    (htgt : ∀ kv ∈ g, ∀ l ∈ kv.2.outgoing, resolveTargetPath l.target kv.1 ∈ files) :
    ∀ (iterations : Nat) (ranks : SMap ℚ), SMap.keys ranks = files →
      SMap.sumVals ranks = 1 →
      SMap.sumVals (prLoop g files (files.length : ℚ) damping iterations ranks) = 1 := by
  intro iterations
  induction iterations with
  | zero => intro ranks _ hsum; simpa [prLoop] using hsum
  | succ k ih =>
    intro ranks hrk hsum
    have hstep := prIter_spec g files damping ranks hfiles hnd hne hout htgt hrk
    have hs : SMap.sumVals (prIter g files (files.length : ℚ) damping ranks) = 1 := by
      rw [hstep.2, hsum]; ring
    exact ih (prIter g files (files.length : ℚ) damping ranks) hstep.1 hs

/-- C7 (amended): for a nonempty backlinks map with no dangling documents in
which every resolved link target is an indexed key, the ranks returned by
`calculatePageRank` sum to exactly 1, for every iteration count and damping
factor — each iteration maps total mass `s` to `(1 - damping) + damping · s`
and the initial mass is `N · (1/N) = 1`. -/
theorem c7_pagerank_sum_one (g : SMap BacklinkInfo) (iterations : Nat) (damping : ℚ)
    (hne : g ≠ []) (hnd : (SMap.keys g).Nodup)
    (hout : ∀ kv ∈ g, kv.2.outgoing ≠ [])
    (htgt : ∀ kv ∈ g, ∀ l ∈ kv.2.outgoing, resolveTargetPath l.target kv.1 ∈ SMap.keys g) :
    SMap.sumVals (calculatePageRank g iterations damping) = 1 := by
  have hkne : SMap.keys g ≠ [] := by
    intro h
    apply hne
    cases g with
    | nil => rfl
    | cons kv rest => simp [SMap.keys] at h
  have hlen : ¬ (SMap.keys g).length = 0 := by
    simpa [List.length_eq_zero] using hkne
  have hnq : (((SMap.keys g).length : ℚ)) ≠ 0 := by exact_mod_cast hlen
  have hinit := SMap.foldl_set_const_spec (1 / ((SMap.keys g).length : ℚ))
    (SMap.keys g) [] hnd (by simp [SMap.keys])
  have hikeys : SMap.keys ((SMap.keys g).foldl
      (fun acc f => SMap.set acc f (1 / ((SMap.keys g).length : ℚ))) []) = SMap.keys g := by
    simpa [SMap.keys] using hinit.1
  have hisum : SMap.sumVals ((SMap.keys g).foldl
      (fun acc f => SMap.set acc f (1 / ((SMap.keys g).length : ℚ))) []) = 1 := by
    rw [hinit.2]
    have h0 : SMap.sumVals ([] : SMap ℚ) = 0 := rfl
    rw [h0, zero_add]
    field_simp
  have hmain := prLoop_spec g (SMap.keys g) damping rfl hnd hkne hout htgt iterations
    _ hikeys hisum
  simp only [calculatePageRank]
  rw [if_neg hlen]
  exact hmain

/-- C7 witness: on the two-document cycle `a ↔ b` the hypotheses hold and the
default PageRank values sum to 1. -/
theorem c7_pagerank_sum_one_witness :
    SMap.sumVals (calculatePageRank exPrState.backlinks 20 (17 / 20)) = 1 :=
  c7_pagerank_sum_one exPrState.backlinks 20 (17 / 20)
    (by with_unfolding_all decide) (by with_unfolding_all decide)
    (by with_unfolding_all decide) (by with_unfolding_all decide)

/-- C9 counterexample: with tags `a/b` and `c` co-occurring once and the
parent `a` indexed, `getTagSuggestions ["a/b"]` ranks the hierarchy-derived
parent (fixed score 5) above the co-occurrence suggestion (score 1), refuting
the claim that co-occurrence suggestions always come first. -/
theorem c9_hierarchy_outranks_cooccurrence :
    (getTagSuggestions exC9State ["a/b"]).map (fun s => (s.reason, s.tag, s.score)) =
      [(SuggestionReason.hierarchy, "a", 5), (SuggestionReason.coOccurrence, "c", 1)] := by
  with_unfolding_all rfl

/-! ### Sorting lemmas -/

theorem mem_insertDesc {α : Type} (key : α → ℚ) (x : α) :
    ∀ (l : List α) (z : α), z ∈ insertDesc key x l ↔ z = x ∨ z ∈ l := by
  intro l
  induction l with
  | nil => intro z; simp [insertDesc]
  | cons y ys ih =>
    intro z
    by_cases h : key y < key x
    · simp [insertDesc, h]
    · simp only [insertDesc, if_neg h, List.mem_cons, ih]
      tauto

theorem pairwise_insertDesc {α : Type} (key : α → ℚ) (x : α) :
    ∀ (l : List α), List.Pairwise (fun a b => key b ≤ key a) l →
      List.Pairwise (fun a b => key b ≤ key a) (insertDesc key x l) := by
  intro l
  induction l with
  | nil => intro _; simp [insertDesc]
  | cons y ys ih =>
    intro hp
    rcases List.pairwise_cons.mp hp with ⟨hy, hys⟩
    by_cases h : key y < key x
    · simp only [insertDesc, if_pos h]
      refine List.pairwise_cons.mpr ⟨?_, hp⟩
      intro z hz
      rcases List.mem_cons.mp hz with hz | hz
      · exact le_of_lt (hz ▸ h)
      · exact le_trans (hy z hz) (le_of_lt h)
    · simp only [insertDesc, if_neg h]
      refine List.pairwise_cons.mpr ⟨?_, ih hys⟩
      intro z hz
      rcases (mem_insertDesc key x ys z).mp hz with hz | hz
      · exact hz ▸ le_of_not_lt h
      · exact hy z hz

theorem pairwise_sortDesc_aux {α : Type} (key : α → ℚ) :
    ∀ (l : List α) (acc : List α), List.Pairwise (fun a b => key b ≤ key a) acc →
      List.Pairwise (fun a b => key b ≤ key a)
        (l.foldl (fun acc x => insertDesc key x acc) acc) := by
  intro l
  induction l with
  | nil => intro acc h; simpa using h
  | cons x xs ih =>
    intro acc h
    exact ih (insertDesc key x acc) (pairwise_insertDesc key x acc h)

theorem pairwise_sortDesc {α : Type} (key : α → ℚ) (l : List α) :
    List.Pairwise (fun a b => key b ≤ key a) (sortDesc key l) :=
  pairwise_sortDesc_aux key l [] (by simp)

theorem mem_sortDesc_aux {α : Type} (key : α → ℚ) :
    ∀ (l : List α) (acc : List α) (z : α),
      z ∈ l.foldl (fun acc x => insertDesc key x acc) acc → z ∈ acc ∨ z ∈ l := by
  intro l
  induction l with
  | nil => intro acc z h; exact Or.inl (by simpa using h)
  | cons x xs ih =>
    intro acc z h
    rcases ih (insertDesc key x acc) z h with h2 | h2
    · rcases (mem_insertDesc key x acc z).mp h2 with h3 | h3
      · exact Or.inr (by simp [h3])
      · exact Or.inl h3
    · exact Or.inr (by simp [h2])

theorem mem_sortDesc {α : Type} (key : α → ℚ) (l : List α) (z : α)
    (h : z ∈ sortDesc key l) : z ∈ l := by
  rcases mem_sortDesc_aux key l [] z h with h2 | h2
  · simp at h2
  · exact h2

/-- Folds that only ever append elements satisfying `P` produce only original
or `P`-satisfying elements. -/
theorem foldl_append_pred {β γ : Type} (P : γ → Prop)
    (f : List γ → β → List γ)
    (hf : ∀ (acc : List γ) (b : β), ∀ x ∈ f acc b, x ∈ acc ∨ P x) :
    ∀ (L : List β) (acc : List γ), ∀ x ∈ L.foldl f acc, x ∈ acc ∨ P x := by
  intro L
  induction L with
  | nil => intro acc x h; exact Or.inl (by simpa using h)
  | cons b bs ih =>
    intro acc x h
    rcases ih (f acc b) x h with h2 | h2
    · exact hf acc b x h2
    · exact Or.inr h2

/-- Variant of `foldl_append_pred` with the membership hypothesis first, so
the fold function is inferred from it. -/
theorem foldl_append_mem {β γ : Type} (P : γ → Prop) (f : List γ → β → List γ)
    (L : List β) (acc : List γ) (x : γ) (hx : x ∈ L.foldl f acc)
    (hf : ∀ (a : List γ) (b : β), ∀ z ∈ f a b, z ∈ a ∨ P z) : x ∈ acc ∨ P x :=
  foldl_append_pred P f hf L acc x hx

theorem mem_hierParentStep (st : TagState) (a : List TagSuggestion) (p : String) :
    ∀ z ∈ hierParentStep st a p,
      z ∈ a ∨ (z.reason = SuggestionReason.hierarchy ∧ (z.score = 5 ∨ z.score = 3)) := by
  intro z hz
  simp only [hierParentStep] at hz
  by_cases hk : SMap.hasKey st.tags p
  · rw [if_pos hk] at hz
    rcases List.mem_append.mp hz with h | h
    · exact Or.inl h
    · refine Or.inr ?_
      simp only [List.mem_cons, List.not_mem_nil, or_false] at h
      subst h
      exact ⟨rfl, Or.inl rfl⟩
  · rw [if_neg hk] at hz
    exact Or.inl hz

theorem mem_hierChildStep (a : List TagSuggestion) (c : String) :
    ∀ z ∈ hierChildStep a c,
      z ∈ a ∨ (z.reason = SuggestionReason.hierarchy ∧ (z.score = 5 ∨ z.score = 3)) := by
  intro z hz
  simp only [hierChildStep] at hz
  rcases List.mem_append.mp hz with h | h
  · exact Or.inl h
  · refine Or.inr ?_
    simp only [List.mem_cons, List.not_mem_nil, or_false] at h
    subst h
    exact ⟨rfl, Or.inr rfl⟩

theorem mem_hierStep (st : TagState) (acc : List TagSuggestion) (tag : String) :
    ∀ y ∈ hierStep st acc tag,
      y ∈ acc ∨ (y.reason = SuggestionReason.hierarchy ∧ (y.score = 5 ∨ y.score = 3)) := by
  intro y hy
  simp only [hierStep] at hy
  have hinner := foldl_append_pred
    (fun (y : TagSuggestion) =>
      y.reason = SuggestionReason.hierarchy ∧ (y.score = 5 ∨ y.score = 3))
    hierChildStep mem_hierChildStep (getChildTags st tag) _ y hy
  rcases hinner with h2 | h2
  · exact foldl_append_pred
      (fun (y : TagSuggestion) =>
        y.reason = SuggestionReason.hierarchy ∧ (y.score = 5 ∨ y.score = 3))
      (hierParentStep st) (mem_hierParentStep st) (getParentTags tag) acc y h2
  · exact Or.inr h2

theorem mem_hierarchicalSuggestions (st : TagState) (existingTags : List String) :
    ∀ x ∈ getHierarchicalSuggestions st existingTags,
      x.reason = SuggestionReason.hierarchy ∧ (x.score = 5 ∨ x.score = 3) := by
  intro x hx
  have hall := foldl_append_pred
    (fun (y : TagSuggestion) =>
      y.reason = SuggestionReason.hierarchy ∧ (y.score = 5 ∨ y.score = 3))
    (hierStep st) (mem_hierStep st) existingTags [] x hx
  rcases hall with h | h
  · simp at h
  · exact h

theorem mem_coPairStep (ex : List String) (a : List TagSuggestion) (kv : String × Nat) :
    ∀ z ∈ coPairStep ex a kv, z ∈ a ∨ z.reason = SuggestionReason.coOccurrence := by
  intro z hz
  simp only [coPairStep] at hz
  by_cases hk : kv.1 ∈ ex
  · rw [if_pos hk] at hz
    exact Or.inl hz
  · rw [if_neg hk] at hz
    rcases List.mem_append.mp hz with h | h
    · exact Or.inl h
    · refine Or.inr ?_
      simp only [List.mem_cons, List.not_mem_nil, or_false] at h
      subst h
      rfl

theorem mem_coStep (st : TagState) (ex : List String) (acc : List TagSuggestion)
    (tag : String) :
    ∀ y ∈ coStep st ex acc tag, y ∈ acc ∨ y.reason = SuggestionReason.coOccurrence := by
  intro y hy
  simp only [coStep] at hy
  exact foldl_append_pred
    (fun (y : TagSuggestion) => y.reason = SuggestionReason.coOccurrence)
    (coPairStep ex) (mem_coPairStep ex) (getCoOccurringTags st tag 10) acc y hy

theorem mem_coSuggestions (st : TagState) (ex : List String) :
    ∀ x ∈ ex.foldl (coStep st ex) [], x.reason = SuggestionReason.coOccurrence := by
  intro x hx
  have hall := foldl_append_pred
    (fun (y : TagSuggestion) => y.reason = SuggestionReason.coOccurrence)
    (coStep st ex) (mem_coStep st ex) ex [] x hx
  rcases hall with h | h
  · simp at h
  · exact h

/-- C9 (amended): for every tag state and input list, the suggestions are
sorted by score in descending order, at most 10 are returned, and every
hierarchy-derived suggestion carries one of the fixed scores 5 (parent) or 3
(child) — so hierarchy suggestions rank inside the single score order, not at
a fixed lower priority. -/
theorem c9_suggestions_sorted_by_score (st : TagState) (existingTags : List String) :
    List.Pairwise (fun (a b : TagSuggestion) => b.score ≤ a.score)
        (getTagSuggestions st existingTags) ∧
      (getTagSuggestions st existingTags).length ≤ 10 ∧
      ∀ x ∈ getTagSuggestions st existingTags,
        x.reason = SuggestionReason.hierarchy → x.score = 5 ∨ x.score = 3 := by
  simp only [getTagSuggestions]
  refine ⟨?_, ?_, ?_⟩
  · exact List.Pairwise.sublist (List.take_sublist 10 _)
      (pairwise_sortDesc (fun (s : TagSuggestion) => s.score) _)
  · exact List.length_take_le 10 _
  · intro x hx hreason
    have hx2 : x ∈ sortDesc (fun (s : TagSuggestion) => s.score) _ :=
      (List.take_sublist 10 _).subset hx
    have hx3 := mem_sortDesc (fun (s : TagSuggestion) => s.score) _ x hx2
    rcases List.mem_append.mp hx3 with h | h
    · have hco := mem_coSuggestions st (normalizeTags existingTags) x h
      rw [hreason] at hco
      cases hco
    · exact (mem_hierarchicalSuggestions st existingTags x h).2

/-! ### Link-index bidirectionality (C5, amended) -/

theorem filter_self_idem {α : Type} (p : α → Bool) (l : List α) :
    (l.filter p).filter p = l.filter p := by
  induction l with
  | nil => rfl
  | cons x xs ih => by_cases h : p x <;> simp [List.filter_cons, h, ih]

/-- `removeIncomingLink` rewrites at most the incoming list of the addressed
entry and leaves every other entry untouched. -/
theorem find?_removeIncomingLink (m : SMap BacklinkInfo) (t s k : String) :
    SMap.find? (removeIncomingLink m t s) k =
      (SMap.find? m k).map (fun info =>
        if k = t then
          { info with incoming := info.incoming.filter (fun l => l.target ≠ s) }
        else info) := by
  simp only [removeIncomingLink]
  cases ht : SMap.find? m t with
  | none =>
    by_cases hk : k = t
    · subst hk
      rw [ht]
      rfl
    · cases hfk : SMap.find? m k with
      | none => rfl
      | some info => simp [hk]
  | some info =>
    by_cases hk : k = t
    · subst hk
      rw [SMap.find?_set_self, ht]
      simp
    · rw [SMap.find?_set_ne _ _ _ _ hk]
      cases hfk : SMap.find? m k with
      | none => rfl
      | some i => simp [hk]

/-- The retraction fold of `removeFileLinks`: every entry whose key is a
resolved target of one of the links has its incoming entries sourced from
`np` dropped; nothing else changes. -/
theorem find?_remFold (np : String) (L : List LinkRef) :
    ∀ (acc : SMap BacklinkInfo) (k : String),
      SMap.find? (L.foldl (remStep np) acc) k =
        (SMap.find? acc k).map (fun info =>
          if k ∈ L.map (fun l => resolveTargetPath l.target np) then
            { info with incoming := info.incoming.filter (fun l => l.target ≠ np) }
          else info) := by
  induction L with
  | nil =>
    intro acc k
    cases hfk : SMap.find? acc k <;> simp [hfk]
  | cons l ls ih =>
    intro acc k
    rw [List.foldl_cons, ih, remStep, find?_removeIncomingLink]
    cases hfk : SMap.find? acc k with
    | none => rfl
    | some info =>
      simp only [Option.map_some']
      congr 1
      by_cases hkt : k = resolveTargetPath l.target np
      · have hmem : k ∈ (l :: ls).map (fun l => resolveTargetPath l.target np) := by
          simp [hkt]
        rw [if_pos hkt, if_pos hmem]
        by_cases hkl : k ∈ ls.map (fun l => resolveTargetPath l.target np)
        · rw [if_pos hkl]
          show BacklinkInfo.mk _ _ = _
          rw [filter_self_idem]
        · rw [if_neg hkl]
      · rw [if_neg hkt]
        by_cases hkl : k ∈ ls.map (fun l => resolveTargetPath l.target np)
        · rw [if_pos hkl, if_pos (by simp [hkl])]
        · rw [if_neg hkl, if_neg (by simp [hkl, hkt])]

/-- `removeFileLinks` empties the outgoing list of the removed source and
keeps every other outgoing list. -/
theorem outOf_removeFileLinksM (m : SMap BacklinkInfo) (fp k : String) :
    outOf (removeFileLinksM m fp) k =
      if k = normalizePath fp then [] else outOf m k := by
  simp only [removeFileLinksM]
  split
  · rename_i hnp
    by_cases hk : k = normalizePath fp
    · subst hk
      simp [outOf, SMap.getD, hnp]
    · rw [if_neg hk]
  · rename_i info hnp
    split
    · rename_i hm1
      rw [find?_remFold, hnp] at hm1
      simp at hm1
    · rename_i info2 hm1
      by_cases hk : k = normalizePath fp
      · subst hk
        simp [outOf, SMap.getD, SMap.find?_set_self]
      · rw [if_neg hk]
        simp only [outOf, SMap.getD]
        rw [SMap.find?_set_ne _ _ _ _ hk, find?_remFold]
        cases hfk : SMap.find? m k with
        | none => rfl
        | some i =>
          simp only [Option.map_some', Option.getD_some]
          by_cases hkl : k ∈ info.outgoing.map
              (fun l => resolveTargetPath l.target (normalizePath fp))
          · rw [if_pos hkl]
          · rw [if_neg hkl]

/-- `removeFileLinks` filters the entries sourced from the removed document
out of the incoming lists of its resolved targets and keeps all other
incoming lists. -/
theorem incOf_removeFileLinksM (m : SMap BacklinkInfo) (fp k : String) :
    incOf (removeFileLinksM m fp) k =
      if k ∈ (outOf m (normalizePath fp)).map
          (fun l => resolveTargetPath l.target (normalizePath fp)) then
        (incOf m k).filter (fun l => l.target ≠ normalizePath fp)
      else incOf m k := by
  simp only [removeFileLinksM]
  split
  · rename_i hnp
    have hout : outOf m (normalizePath fp) = [] := by
      simp [outOf, SMap.getD, hnp]
    rw [hout]
    simp
  · rename_i info hnp
    have hout : outOf m (normalizePath fp) = info.outgoing := by
      simp [outOf, SMap.getD, hnp]
    split
    · rename_i hm1
      rw [find?_remFold, hnp] at hm1
      simp at hm1
    · rename_i info2 hm1
      rw [find?_remFold, hnp] at hm1
      simp only [Option.map_some', Option.some.injEq] at hm1
      rw [hout]
      by_cases hk : k = normalizePath fp
      · subst hk
        simp only [incOf, SMap.getD, SMap.find?_set_self, Option.getD_some, hnp]
        rw [← hm1]
        by_cases hkl : normalizePath fp ∈ info.outgoing.map
            (fun l => resolveTargetPath l.target (normalizePath fp))
        · rw [if_pos hkl, if_pos hkl]
        · rw [if_neg hkl, if_neg hkl]
      · simp only [incOf, SMap.getD]
        rw [SMap.find?_set_ne _ _ _ _ hk, find?_remFold]
        cases hfk : SMap.find? m k with
        | none =>
          simp only [Option.map_none', Option.getD_none]
          by_cases hkl : k ∈ info.outgoing.map
              (fun l => resolveTargetPath l.target (normalizePath fp))
          · rw [if_pos hkl]
            rfl
          · rw [if_neg hkl]
        | some i =>
          simp only [Option.map_some', Option.getD_some]
          by_cases hkl : k ∈ info.outgoing.map
              (fun l => resolveTargetPath l.target (normalizePath fp))
          · rw [if_pos hkl, if_pos hkl]
          · rw [if_neg hkl, if_neg hkl]

/-- `addIncomingLink` never changes an outgoing list. -/
theorem outOf_addIncomingLink (m : SMap BacklinkInfo) (t : String) (r : LinkRef)
    (k : String) : outOf (addIncomingLink m t r) k = outOf m k := by
  simp only [addIncomingLink]
  by_cases hk : k = t
  · subst hk
    simp only [outOf, SMap.getD, SMap.find?_set_self]
    cases hfk : SMap.find? m k <;> simp [hfk]
  · simp only [outOf, SMap.getD]
    rw [SMap.find?_set_ne _ _ _ _ hk]

/-- `addIncomingLink` appends the reference to the incoming list of the
addressed target and keeps every other incoming list. -/
theorem incOf_addIncomingLink (m : SMap BacklinkInfo) (t : String) (r : LinkRef)
    (k : String) :
    incOf (addIncomingLink m t r) k =
      if k = t then incOf m k ++ [r] else incOf m k := by
  simp only [addIncomingLink]
  by_cases hk : k = t
  · subst hk
    rw [if_pos rfl]
    simp only [incOf, SMap.getD, SMap.find?_set_self]
    cases hfk : SMap.find? m k <;> simp [hfk]
  · rw [if_neg hk]
    simp only [incOf, SMap.getD]
    rw [SMap.find?_set_ne _ _ _ _ hk]

/-- The insertion fold of `addFileLinks` keeps every outgoing list. -/
theorem outOf_addFold (np : String) (links : List LinkRef) :
    ∀ (acc : SMap BacklinkInfo) (k : String),
      outOf (links.foldl (addStep np) acc) k = outOf acc k := by
  induction links with
  | nil => intro acc k; rfl
  | cons l ls ih =>
    intro acc k
    rw [List.foldl_cons, ih, addStep, outOf_addIncomingLink]

/-- The insertion fold of `addFileLinks` appends to each incoming list
exactly the reciprocals of the links resolving to that key, in order. -/
theorem incOf_addFold (np : String) (links : List LinkRef) :
    ∀ (acc : SMap BacklinkInfo) (k : String),
      incOf (links.foldl (addStep np) acc) k =
        incOf acc k ++
          (links.filter (fun l => resolveTargetPath l.target np = k)).map (recipOf np) := by
  induction links with
  | nil => intro acc k; simp
  | cons l ls ih =>
    intro acc k
    rw [List.foldl_cons, ih, addStep, incOf_addIncomingLink]
    by_cases hres : resolveTargetPath l.target np = k
    · rw [if_pos hres.symm, List.filter_cons_of_pos (by simp [hres]), List.map_cons,
        List.append_assoc]
      rfl
    · rw [if_neg (fun hk => hres hk.symm),
        List.filter_cons_of_neg (by simp [hres])]

/-- `addFileLinks` sets the outgoing list of the (normalized) source path to
the given links and keeps every other outgoing list. -/
theorem outOf_addFileLinksM (m : SMap BacklinkInfo) (fp : String)
    (links : List LinkRef) (k : String) :
    outOf (addFileLinksM m fp links) k =
      if k = normalizePath fp then links else outOf m k := by
  simp only [addFileLinksM, outOf_addFold]
  by_cases hk : k = normalizePath fp
  · subst hk
    simp [outOf, SMap.getD, SMap.find?_set_self]
  · rw [if_neg hk]
    simp only [outOf, SMap.getD]
    rw [SMap.find?_set_ne _ _ _ _ hk]

/-- `addFileLinks` appends the reciprocals of the links at their resolved
targets and otherwise keeps all incoming lists. -/
theorem incOf_addFileLinksM (m : SMap BacklinkInfo) (fp : String)
    (links : List LinkRef) (k : String) :
    incOf (addFileLinksM m fp links) k =
      incOf m k ++
        (links.filter
          (fun l => resolveTargetPath l.target (normalizePath fp) = k)).map
          (recipOf (normalizePath fp)) := by
  simp only [addFileLinksM, incOf_addFold]
  congr 1
  by_cases hk : k = normalizePath fp
  · subst hk
    simp only [incOf, SMap.getD, SMap.find?_set_self]
    cases hfk : SMap.find? m (normalizePath fp) <;> simp [hfk]
  · simp only [incOf, SMap.getD]
    rw [SMap.find?_set_ne _ _ _ _ hk]

/-- Outgoing lists after `updateFileLinks`: the source's list becomes the new
links, all others are unchanged. -/
theorem outOf_updateFileLinks (st : BState) (fp : String) (links : List LinkRef)
    (k : String) :
    outOf (updateFileLinks st fp links).backlinks k =
      if k = normalizePath fp then links else outOf st.backlinks k := by
  simp only [updateFileLinks, outOf_addFileLinksM, outOf_removeFileLinksM]
  by_cases hk : k = normalizePath fp
  · rw [if_pos hk, if_pos hk]
  · rw [if_neg hk, if_neg hk, if_neg hk]

/-- Incoming lists after `updateFileLinks`: the reciprocals of the prior
outgoing links are retracted and exactly the reciprocals of the new links are
appended. -/
theorem incOf_updateFileLinks (st : BState) (fp : String) (links : List LinkRef)
    (k : String) :
    incOf (updateFileLinks st fp links).backlinks k =
      (if k ∈ (outOf st.backlinks (normalizePath fp)).map
          (fun l => resolveTargetPath l.target (normalizePath fp)) then
        (incOf st.backlinks k).filter (fun l => l.target ≠ normalizePath fp)
      else incOf st.backlinks k) ++
        (links.filter
          (fun l => resolveTargetPath l.target (normalizePath fp) = k)).map
          (recipOf (normalizePath fp)) := by
  simp only [updateFileLinks, incOf_addFileLinksM, incOf_removeFileLinksM]

/-- One `updateFileLinks` call preserves bidirectional link consistency. -/
theorem linkInv_updateFileLinks (st : BState) (fp : String) (links : List LinkRef)
    (h : LinkInv st.backlinks) : LinkInv (updateFileLinks st fp links).backlinks := by
  obtain ⟨hfwd, hbwd⟩ := h
  constructor
  · intro src l hl
    rw [outOf_updateFileLinks] at hl
    by_cases hsrc : src = normalizePath fp
    · rw [if_pos hsrc] at hl
      refine ⟨recipOf (normalizePath fp) l, ?_, by rw [hsrc]; rfl⟩
      rw [incOf_updateFileLinks, hsrc]
      refine List.mem_append_right _ (List.mem_map_of_mem _ ?_)
      exact List.mem_filter.mpr ⟨hl, by simp⟩
    · rw [if_neg hsrc] at hl
      obtain ⟨e, he, het⟩ := hfwd src l hl
      refine ⟨e, ?_, het⟩
      rw [incOf_updateFileLinks]
      refine List.mem_append_left _ ?_
      by_cases hc : resolveTargetPath l.target src ∈
          (outOf st.backlinks (normalizePath fp)).map
            (fun l => resolveTargetPath l.target (normalizePath fp))
      · rw [if_pos hc]
        exact List.mem_filter.mpr ⟨he, by simp [het, hsrc]⟩
      · rw [if_neg hc]
        exact he
  · intro tgt e he
    rw [incOf_updateFileLinks] at he
    rcases List.mem_append.mp he with h1 | h2
    · have hmem : e ∈ incOf st.backlinks tgt := by
        by_cases hc : tgt ∈ (outOf st.backlinks (normalizePath fp)).map
            (fun l => resolveTargetPath l.target (normalizePath fp))
        · rw [if_pos hc] at h1
          exact (List.mem_filter.mp h1).1
        · rw [if_neg hc] at h1
          exact h1
      obtain ⟨l, hl, hres⟩ := hbwd tgt e hmem
      have hene : e.target ≠ normalizePath fp := by
        by_cases hc : tgt ∈ (outOf st.backlinks (normalizePath fp)).map
            (fun l => resolveTargetPath l.target (normalizePath fp))
        · rw [if_pos hc] at h1
          have := (List.mem_filter.mp h1).2
          simpa using this
        · rw [if_neg hc] at h1
          intro heq
          apply hc
          rw [heq] at hl hres
          exact List.mem_map.mpr ⟨l, hl, hres⟩
      refine ⟨l, ?_, hres⟩
      rw [outOf_updateFileLinks, if_neg hene]
      exact hl
    · obtain ⟨l, hl, rfl⟩ := List.mem_map.mp h2
      have hlres : resolveTargetPath l.target (normalizePath fp) = tgt := by
        have := (List.mem_filter.mp hl).2
        simpa using this
      refine ⟨l, ?_, hlres⟩
      have htgt : (recipOf (normalizePath fp) l).target = normalizePath fp := rfl
      rw [htgt, outOf_updateFileLinks, if_pos rfl]
      exact (List.mem_filter.mp hl).1

/-- C5 (amended): between public operations of any sequence of
`updateFileLinks` calls from the empty engine, a document's outgoing link
resolves to a target exactly when the target's incoming list carries a
reciprocal entry naming that document; each update retracts the reciprocals
of the prior links and inserts those of the new ones. The equivalence does
not extend to sequences containing `removeFile` of a link target. -/
theorem c5_update_preserves_bidirectionality (st : BState) (h : ReachB st) :
    LinkInv st.backlinks := by
  induction h with
  | empty =>
    constructor
    · intro src l hl
      simp [outOf, emptyBState, SMap.getD, SMap.find?] at hl
    · intro tgt e he
      simp [incOf, emptyBState, SMap.getD, SMap.find?] at he
  | step st fp links h ih => exact linkInv_updateFileLinks st fp links ih

/-- C5 witness: the invariant holds concretely after `updateFileLinks a [b]`
on the empty engine. -/
theorem c5_update_preserves_bidirectionality_witness :
    ReachB (updateFileLinks emptyBState "a" [lk "b"]) ∧
      LinkInv (updateFileLinks emptyBState "a" [lk "b"]).backlinks :=
  ⟨ReachB.step emptyBState "a" [lk "b"] ReachB.empty,
    c5_update_preserves_bidirectionality _
      (ReachB.step emptyBState "a" [lk "b"] ReachB.empty)⟩

/-! ### Divergence of the empty-query match loop (C10) -/

theorem find_range_le : ∀ (n m : Nat), m ≤ n →
    (List.range (n + 1)).find? (fun j => decide (m ≤ j)) = some m := by
  intro n
  induction n with
  | zero =>
    intro m hm
    have h0 : m = 0 := Nat.le_zero.mp hm
    subst h0
    rfl
  | succ k ih =>
    intro m hm
    cases m with
    | zero =>
      rw [List.range_succ_eq_map]
      rw [List.find?_cons_of_pos _ (by simp)]
    | succ m2 =>
      rw [List.range_succ_eq_map]
      rw [List.find?_cons_of_neg _ (by simp)]
      rw [List.find?_map]
      have hfun : ((fun j => decide (m2 + 1 ≤ j)) ∘ Nat.succ) =
          fun j => decide (m2 ≤ j) := by
        funext j
        simp [Nat.succ_le_succ_iff]
      rw [hfun, ih m2 (Nat.succ_le_succ_iff.mp hm)]
      rfl

/-- `indexOf` with an empty needle always succeeds, at the start index
clamped to the text length. -/
theorem indexOfFrom_nil (hay : List Char) (start : Nat) :
    indexOfFrom [] hay start = some (min start hay.length) := by
  simp only [indexOfFrom, List.isPrefixOf, Bool.and_true]
  exact find_range_le hay.length (min start hay.length) (Nat.min_le_right _ _)

/-- With an empty search term the occurrence loop never finishes: `indexOf`
succeeds at every step and the index advances by the term length 0, so every
fuel bound is exhausted. -/
theorem findTermMatchesGo_empty (kind : MatchKind) (rawTerm : String)
    (lowerText textChars : List Char) :
    ∀ (fuel index : Nat) (acc : List MatchItem),
      findTermMatchesGo kind rawTerm [] lowerText textChars fuel index acc = none := by
  intro fuel
  induction fuel with
  | zero => intro index acc; rfl
  | succ n ih =>
    intro index acc
    simp only [findTermMatchesGo, indexOfFrom_nil]
    exact ih _ _

theorem findTermMatches_empty (text : String) (kind : MatchKind) (fuel : Nat) :
    findTermMatches "" text kind fuel = none := by
  simp only [findTermMatches]
  exact findTermMatchesGo_empty _ _ _ _ fuel 0 []

/-- `extractMatches` on the empty query diverges for every document: the
query splits into the single term `""` and the occurrence loop for that term
never terminates. -/
theorem extractMatches_empty (f : IndexedFile) (fuel : Nat) :
    extractMatches f "" fuel = none := by
  have hsplit : splitWs (lowerStr "") = [""] := rfl
  simp only [extractMatches, hsplit, List.foldl_cons, List.foldl_nil]
  rw [findTermMatches_empty]
  rfl

/-- C10: the empty-query claim fails on the code. The claim says the search
returns the filtered candidates scored from the non-text signals; on a
tagged document whose tag score passes the threshold, `scoreAndRankFiles`
calls `extractMatches` with the query terms `[""]` and the occurrence loop
never advances, so the search never returns — for every loop bound the
modelled search is still running. -/
theorem c10_empty_query_search_diverges :
    ∀ fuel : Nat, searchM exC10Engine exC10Query [exC10File] 0 fuel = none := by
  intro fuel
  have hred : searchM exC10Engine exC10Query [exC10File] 0 fuel =
      ((extractMatches exC10File "" fuel).map
        (fun ms => ([] : List SearchResultM) ++
          [{ file := exC10File,
             score := calculateFinalScore exC10Engine.weights
               (calculateRelevance exC10File ""
                 (calculatePageRankDefault exC10Engine.backlinks) 0),
             relevance := calculateRelevance exC10File ""
               (calculatePageRankDefault exC10Engine.backlinks) 0,
             matchItems := ms }])).map
        (fun rs => sortDesc (fun r => r.score) rs) := by
    with_unfolding_all rfl
  rw [hred, extractMatches_empty]
  rfl

/-! ### Shortest-path correctness (C8) -/

theorem walk_zero {m : SMap BacklinkInfo} {a b : String} (h : Walk m a b 0) : a = b := by
  cases h
  rfl

theorem walk_snoc {m : SMap BacklinkInfo} {a b c : String} {n : Nat}
    (h : Walk m a b n) (hbc : c ∈ nbrs m b) : Walk m a c (n + 1) := by
  induction h with
  | nil v => exact Walk.cons hbc (Walk.nil c)
  | cons hab _ ih => exact Walk.cons hab (ih hbc)

theorem walk_last_decomp {m : SMap BacklinkInfo} :
    ∀ {n : Nat} {a c : String}, Walk m a c (n + 1) →
      ∃ b, Walk m a b n ∧ c ∈ nbrs m b := by
  intro n
  induction n with
  | zero =>
    intro a c h
    cases h with
    | cons hab h2 =>
      have := walk_zero h2
      subst this
      exact ⟨a, Walk.nil a, hab⟩
  | succ k ih =>
    intro a c h
    cases h with
    | cons hab h2 =>
      obtain ⟨u, hu, hcu⟩ := ih h2
      exact ⟨u, Walk.cons hab hu, hcu⟩

theorem routeOk_snoc {m : SMap BacklinkInfo} {s v x : String} {p : List String}
    (h : RouteOk m s v p) (hne : p ≠ []) (hx : x ∈ nbrs m v) :
    RouteOk m s x (p ++ [x]) := by
  obtain ⟨hhead, hlast, hchain⟩ := h
  refine ⟨?_, ?_, ?_⟩
  · cases p with
    | nil => cases hne rfl
    | cons a q => simpa using hhead
  · exact List.getLast?_concat p
  · refine List.chain'_append.mpr ⟨hchain, List.chain'_singleton x, ?_⟩
    intro y hy z hz
    simp only [List.head?_cons, Option.mem_def, Option.some.injEq] at hz
    rw [Option.mem_def, hlast] at hy
    cases hy
    subst hz
    exact hx

theorem routeOk_walk {m : SMap BacklinkInfo} {t : String} :
    ∀ {p : List String} {s : String}, RouteOk m s t p →
      Walk m s t (p.length - 1) := by
  intro p
  induction p with
  | nil =>
    intro s h
    simp [RouteOk] at h
  | cons a q ih =>
    intro s h
    obtain ⟨hhead, hlast, hchain⟩ := h
    simp only [List.head?_cons, Option.some.injEq] at hhead
    cases q with
    | nil =>
      simp only [List.getLast?_singleton, Option.some.injEq] at hlast
      rw [← hhead, ← hlast]
      exact Walk.nil a
    | cons b q2 =>
      rw [hhead] at hchain
      have hedge : b ∈ nbrs m s := (List.chain'_cons.mp hchain).1
      have hrest : RouteOk m b t (b :: q2) :=
        ⟨rfl, by simpa using hlast, (List.chain'_cons.mp hchain).2⟩
      have hw := ih hrest
      have hlen : (a :: b :: q2).length - 1 = ((b :: q2).length - 1) + 1 := by
        simp
      rw [hlen]
      exact Walk.cons hedge hw

/-- In the `Sum.inl` case the scan met the target among the neighbors and
returned the dequeued route extended by the target. -/
theorem bfsScan_inl (t : String) (r : List String) :
    ∀ (ns : List String) (Q : List (String × List String)) (V : List String)
      (p : List String), bfsScan t r ns Q V = Sum.inl p →
        p = r ++ [t] ∧ t ∈ ns := by
  intro ns
  induction ns with
  | nil =>
    intro Q V p h
    simp [bfsScan] at h
  | cons n rest ih =>
    intro Q V p h
    simp only [bfsScan] at h
    by_cases hnt : n = t
    · rw [if_pos hnt] at h
      cases h
      exact ⟨by rw [hnt], by simp [hnt]⟩
    · rw [if_neg hnt] at h
      by_cases hv : n ∈ V
      · rw [if_pos hv] at h
        obtain ⟨hp, hmem⟩ := ih _ _ _ h
        exact ⟨hp, List.mem_cons_of_mem n hmem⟩
      · rw [if_neg hv] at h
        obtain ⟨hp, hmem⟩ := ih _ _ _ h
        exact ⟨hp, List.mem_cons_of_mem n hmem⟩

/-- In the `Sum.inr` case the scan appended one queue entry and one visited
mark per newly seen neighbor, never meeting the target. -/
theorem bfsScan_inr (t : String) (r : List String) :
    ∀ (ns : List String) (Q : List (String × List String)) (V : List String)
      (Qf : List (String × List String)) (Vf : List String),
      bfsScan t r ns Q V = Sum.inr (Qf, Vf) →
        ∃ E : List String,
          Qf = Q ++ E.map (fun x => (x, r ++ [x])) ∧ Vf = V ++ E ∧
            E.Nodup ∧ (∀ x ∈ E, x ∈ ns ∧ x ∉ V) ∧
            (∀ x ∈ ns, x ≠ t ∧ x ∈ Vf) := by
  intro ns
  induction ns with
  | nil =>
    intro Q V Qf Vf h
    simp only [bfsScan, Sum.inr.injEq, Prod.mk.injEq] at h
    refine ⟨[], by simp [h.1.symm], by simp [h.2.symm], by simp, by simp, by simp⟩
  | cons n rest ih =>
    intro Q V Qf Vf h
    simp only [bfsScan] at h
    by_cases hnt : n = t
    · rw [if_pos hnt] at h
      cases h
    · rw [if_neg hnt] at h
      by_cases hv : n ∈ V
      · rw [if_pos hv] at h
        obtain ⟨E, hQ, hV, hnd, hprop, hall⟩ := ih _ _ _ _ h
        refine ⟨E, hQ, hV, hnd, ?_, ?_⟩
        · intro x hx
          obtain ⟨h1, h2⟩ := hprop x hx
          exact ⟨List.mem_cons_of_mem n h1, h2⟩
        · intro x hx
          rcases List.mem_cons.mp hx with hxe | hxe
          · subst hxe
            exact ⟨hnt, by rw [hV]; exact List.mem_append_left _ hv⟩
          · exact hall x hxe
      · rw [if_neg hv] at h
        obtain ⟨E, hQ, hV, hnd, hprop, hall⟩ := ih _ _ _ _ h
        refine ⟨n :: E, ?_, ?_, ?_, ?_, ?_⟩
        · rw [hQ]
          simp [List.append_assoc]
        · rw [hV]
          simp [List.append_assoc]
        · refine List.nodup_cons.mpr ⟨?_, hnd⟩
          intro hcon
          exact ((hprop n hcon).2) (List.mem_append_right _ (by simp))
        · intro x hx
          rcases List.mem_cons.mp hx with hxe | hxe
          · subst hxe
            exact ⟨by simp, hv⟩
          · obtain ⟨h1, h2⟩ := hprop x hxe
            refine ⟨List.mem_cons_of_mem n h1, ?_⟩
            intro hcon
            exact h2 (List.mem_append_left _ hcon)
        · intro x hx
          rcases List.mem_cons.mp hx with hxe | hxe
          · subst hxe
            refine ⟨hnt, ?_⟩
            rw [hV]
            exact List.mem_append_left _ (List.mem_append_right _ (by simp))
          · exact hall x hxe

theorem SMap.find?_mem {α : Type} (m : SMap α) (k : String) (v : α)
    (h : SMap.find? m k = some v) : (k, v) ∈ m := by
  induction m with
  | nil => simp [SMap.find?] at h
  | cons kv rest ih =>
    obtain ⟨k2, v2⟩ := kv
    simp only [SMap.find?] at h
    by_cases hk : k2 = k
    · rw [if_pos hk] at h
      cases h
      subst hk
      exact List.mem_cons_self _ _
    · rw [if_neg hk] at h
      exact List.mem_cons_of_mem _ (ih h)

theorem nbrs_of_find {m : SMap BacklinkInfo} {v : String} {info : BacklinkInfo}
    (h : SMap.find? m v = some info) : nbrs m v = nbrsOf info v := by
  simp [nbrs, h]

theorem nbrs_of_none {m : SMap BacklinkInfo} {v : String}
    (h : SMap.find? m v = none) : nbrs m v = [] := by
  simp [nbrs, h]

/-- Any entry of a sorted queue is at least as long as the head. -/
theorem bfs_head_min {Q : List (String × List String)}
    (hsorted : List.Pairwise (fun (a b : String × List String) =>
      a.2.length ≤ b.2.length) Q)
    {f e : String × List String} (hf : Q.head? = some f) (he : e ∈ Q) :
    f.2.length ≤ e.2.length := by
  cases Q with
  | nil => cases he
  | cons q rest =>
    simp only [List.head?_cons, Option.some.injEq] at hf
    subst hf
    rcases List.mem_cons.mp he with h | h
    · rw [h]
    · exact (List.pairwise_cons.mp hsorted).1 e h

/-- Every node whose distance from the source lies strictly below the
current queue level (and within the depth bound) is already visited. -/
theorem bfs_visited_of_close {m : SMap BacklinkInfo} {s t : String} {D : Nat}
    {Q : List (String × List String)} {vis : List String}
    (hInv : BfsInv m s t D Q vis) :
    ∀ (j : Nat) (w : String), Walk m s w j → j + 1 ≤ D + 1 →
      (∀ f, Q.head? = some f → j + 1 < f.2.length) → w ∈ vis := by
  intro j
  induction j with
  | zero =>
    intro w hw _ _
    rw [← walk_zero hw]
    exact hInv.sVis
  | succ k ih =>
    intro w hw hD hlev
    obtain ⟨u, hu, hwu⟩ := walk_last_decomp hw
    have huvis : u ∈ vis := by
      refine ih u hu (by omega) ?_
      intro f hf
      have := hlev f hf
      omega
    have hunq : ∀ e ∈ Q, e.1 ≠ u := by
      intro e he heq
      cases hQ : Q.head? with
      | none =>
        rw [List.head?_eq_none_iff] at hQ
        subst hQ
        cases he
      | some f =>
        have h1 := hlev f hQ
        have h2 := bfs_head_min hInv.sorted hQ he
        have h3 := (hInv.entries e he).2.2 k (heq ▸ hu)
        omega
    exact hInv.expanded u huvis hunq k hu (by omega) w hwu

/-- Every node strictly closer than the queue level has all its neighbors
visited (it was dequeued and fully expanded). -/
theorem bfs_nbrs_visited {m : SMap BacklinkInfo} {s t : String} {D : Nat}
    {Q : List (String × List String)} {vis : List String}
    (hInv : BfsInv m s t D Q vis) :
    ∀ (j : Nat) (u : String), Walk m s u j → j + 1 ≤ D →
      (∀ f, Q.head? = some f → j + 1 < f.2.length) →
      ∀ x ∈ nbrs m u, x ∈ vis := by
  intro j u hu hD hlev
  have huvis : u ∈ vis := bfs_visited_of_close hInv j u hu (by omega) hlev
  have hunq : ∀ e ∈ Q, e.1 ≠ u := by
    intro e he heq
    cases hQ : Q.head? with
    | none =>
      rw [List.head?_eq_none_iff] at hQ
      subst hQ
      cases he
    | some f =>
      have h1 := hlev f hQ
      have h2 := bfs_head_min hInv.sorted hQ he
      have h3 := (hInv.entries e he).2.2 j (heq ▸ hu)
      omega
  exact hInv.expanded u huvis hunq j hu hD

theorem countP_split {α : Type} (p q : α → Bool) (l : List α) :
    l.countP p = l.countP (fun x => p x && q x) + l.countP (fun x => p x && !q x) := by
  induction l with
  | nil => rfl
  | cons x xs ih =>
    simp only [List.countP_cons]
    cases hp : p x <;> cases hq : q x <;> simp [hp, hq] <;> omega

/-- Marking more nodes visited never increases the unseen-occurrence count. -/
theorem filter_unvis_mono (V W L : List String) (hVW : ∀ x, x ∈ V → x ∈ W) :
    (L.filter (fun x => decide (¬ x ∈ W))).length ≤
      (L.filter (fun x => decide (¬ x ∈ V))).length := by
  rw [← List.countP_eq_length_filter, ← List.countP_eq_length_filter]
  refine List.countP_mono_left ?_
  intro a _ h
  simp only [decide_eq_true_eq] at h ⊢
  exact fun hv => h (hVW a hv)

/-- Visiting a set of fresh neighbors of an indexed node drops the
unseen-occurrence count by at least the number of new marks. -/
theorem unseen_drop (m : SMap BacklinkInfo) (v : String) (info : BacklinkInfo)
    (hv : (v, info) ∈ m) (vis E : List String) (hnd : E.Nodup)
    (hprop : ∀ x ∈ E, x ∈ nbrsOf info v ∧ x ∉ vis) :
    unseenCount m (vis ++ E) + E.length ≤ unseenCount m vis := by
  obtain ⟨m1, m2, rfl⟩ := List.append_of_mem hv
  simp only [unseenCount, List.map_append, List.map_cons, List.sum_append, List.sum_cons]
  have hm1 : ((m1.map (fun kv =>
      ((nbrsOf kv.2 kv.1).filter (fun x => decide (¬ x ∈ vis ++ E))).length)).sum : Nat) ≤
      (m1.map (fun kv =>
      ((nbrsOf kv.2 kv.1).filter (fun x => decide (¬ x ∈ vis))).length)).sum := by
    refine List.sum_le_sum ?_
    intro kv _
    exact filter_unvis_mono vis (vis ++ E) _ (fun x hx => List.mem_append_left _ hx)
  have hm2 : ((m2.map (fun kv =>
      ((nbrsOf kv.2 kv.1).filter (fun x => decide (¬ x ∈ vis ++ E))).length)).sum : Nat) ≤
      (m2.map (fun kv =>
      ((nbrsOf kv.2 kv.1).filter (fun x => decide (¬ x ∈ vis))).length)).sum := by
    refine List.sum_le_sum ?_
    intro kv _
    exact filter_unvis_mono vis (vis ++ E) _ (fun x hx => List.mem_append_left _ hx)
  have hctr : ((nbrsOf info v).filter (fun x => decide (¬ x ∈ vis ++ E))).length + E.length ≤
      ((nbrsOf info v).filter (fun x => decide (¬ x ∈ vis))).length := by
    rw [← List.countP_eq_length_filter, ← List.countP_eq_length_filter]
    rw [countP_split (fun x => decide (¬ x ∈ vis)) (fun x => decide (x ∈ E)) (nbrsOf info v)]
    have hc1 : (nbrsOf info v).countP (fun x => decide (¬ x ∈ vis ++ E)) ≤
        (nbrsOf info v).countP (fun x => decide (¬ x ∈ vis) && !decide (x ∈ E)) := by
      refine List.countP_mono_left ?_
      intro a _ h
      simp only [decide_eq_true_eq, List.mem_append, not_or] at h
      simp [h.1, h.2]
    have hc2 : E.length ≤
        (nbrsOf info v).countP (fun x => decide (¬ x ∈ vis) && decide (x ∈ E)) := by
      rw [List.countP_eq_length_filter]
      refine List.Subperm.length_le (hnd.subperm ?_)
      intro x hx
      rw [List.mem_filter]
      exact ⟨(hprop x hx).1, by simp [hx, (hprop x hx).2]⟩
    omega
  omega

/-- The unseen-occurrence count is bounded by the total neighbor count. -/
theorem unseen_le_total (m : SMap BacklinkInfo) (vis : List String) :
    unseenCount m vis ≤ totalNbrLen m := by
  simp only [unseenCount, totalNbrLen]
  refine List.sum_le_sum ?_
  intro kv _
  exact List.length_filter_le _ _

/-- Dropping a too-deep head entry preserves the loop invariant. -/
theorem bfsInv_skip_deep {m : SMap BacklinkInfo} {s t : String} {D : Nat}
    {v : String} {r : List String} {rest : List (String × List String)}
    {vis : List String} (hInv : BfsInv m s t D ((v, r) :: rest) vis)
    (hdeep : D < r.length) : BfsInv m s t D rest vis := by
  have htail := (List.pairwise_cons.mp hInv.sorted).2
  have hhead := (List.pairwise_cons.mp hInv.sorted).1
  refine ⟨?_, htail, ?_, ?_, hInv.sVis, ?_, hInv.tNotVis⟩
  · intro e he
    exact hInv.entries e (List.mem_cons_of_mem _ he)
  · intro f hf e he
    have h1 := hhead f (List.mem_of_mem_head? hf)
    have h2 := hInv.bounded (v, r) rfl e (List.mem_cons_of_mem _ he)
    omega
  · intro e he
    exact hInv.nodesVis e (List.mem_cons_of_mem _ he)
  · intro w hwvis hwnq j hwj hjD x hx
    by_cases hwv : w = v
    · subst hwv
      exfalso
      have hmin : r.length ≤ j + 1 :=
        (hInv.entries (w, r) (List.mem_cons_self _ _)).2.2 j hwj
      omega
    · refine hInv.expanded w hwvis ?_ j hwj hjD x hx
      intro e he
      rcases List.mem_cons.mp he with h | h
      · rw [h]
        exact fun hc => hwv hc.symm
      · exact hwnq e h

/-- Dropping a head entry with no adjacency entry preserves the invariant. -/
theorem bfsInv_skip_nofind {m : SMap BacklinkInfo} {s t : String} {D : Nat}
    {v : String} {r : List String} {rest : List (String × List String)}
    {vis : List String} (hInv : BfsInv m s t D ((v, r) :: rest) vis)
    (hfind : SMap.find? m v = none) : BfsInv m s t D rest vis := by
  have htail := (List.pairwise_cons.mp hInv.sorted).2
  have hhead := (List.pairwise_cons.mp hInv.sorted).1
  refine ⟨?_, htail, ?_, ?_, hInv.sVis, ?_, hInv.tNotVis⟩
  · intro e he
    exact hInv.entries e (List.mem_cons_of_mem _ he)
  · intro f hf e he
    have h1 := hhead f (List.mem_of_mem_head? hf)
    have h2 := hInv.bounded (v, r) rfl e (List.mem_cons_of_mem _ he)
    omega
  · intro e he
    exact hInv.nodesVis e (List.mem_cons_of_mem _ he)
  · intro w hwvis hwnq j hwj hjD x hx
    by_cases hwv : w = v
    · subst hwv
      rw [nbrs_of_none hfind] at hx
      cases hx
    · refine hInv.expanded w hwvis ?_ j hwj hjD x hx
      intro e he
      rcases List.mem_cons.mp he with h | h
      · rw [h]
        exact fun hc => hwv hc.symm
      · exact hwnq e h

/-- Expanding the head entry preserves the loop invariant: the fresh
neighbors join the queue with minimal one-longer routes and the head node
becomes fully expanded. -/
theorem bfsInv_expand {m : SMap BacklinkInfo} {s t : String} {D : Nat}
    {v : String} {r : List String} {rest : List (String × List String)}
    {vis : List String} {info : BacklinkInfo} {E : List String}
    (hInv : BfsInv m s t D ((v, r) :: rest) vis)
    (hrD : r.length ≤ D)
    (hinfo : SMap.find? m v = some info)
    (_hnd : E.Nodup)
    (hprop : ∀ x ∈ E, x ∈ nbrsOf info v ∧ x ∉ vis)
    (hcov : ∀ x ∈ nbrsOf info v, x ∈ vis ++ E)
    (ht : t ∉ E) :
    BfsInv m s t D (rest ++ E.map (fun x => (x, r ++ [x]))) (vis ++ E) := by
  have htail := (List.pairwise_cons.mp hInv.sorted).2
  have hhead := (List.pairwise_cons.mp hInv.sorted).1
  have hentryHead := hInv.entries (v, r) (List.mem_cons_self _ _)
  have hnewlen : ∀ e ∈ E.map (fun x => (x, r ++ [x])),
      e.2.length = r.length + 1 := by
    intro e he
    obtain ⟨x, _, rfl⟩ := List.mem_map.mp he
    simp
  have hrestlen : ∀ e ∈ rest, e.2.length ≤ r.length + 1 := by
    intro e he
    exact hInv.bounded (v, r) rfl e (List.mem_cons_of_mem _ he)
  have hrestlo : ∀ e ∈ rest, r.length ≤ e.2.length := fun e he => hhead e he
  refine ⟨?_, ?_, ?_, ?_, List.mem_append_left _ hInv.sVis, ?_, ?_⟩
  · -- entries
    intro e he
    rcases List.mem_append.mp he with h | h
    · exact hInv.entries e (List.mem_cons_of_mem _ h)
    · obtain ⟨x, hxE, rfl⟩ := List.mem_map.mp h
      have hxn : x ∈ nbrs m v := by
        rw [nbrs_of_find hinfo]
        exact (hprop x hxE).1
      refine ⟨by simp, routeOk_snoc hentryHead.2.1 hentryHead.1 hxn, ?_⟩
      intro j hj
      simp only [List.length_append, List.length_singleton]
      have hrj : r.length ≤ j := by
        by_contra hlt
        push_neg at hlt
        cases j with
        | zero =>
          have hsx : s = x := walk_zero hj
          exact (hprop x hxE).2 (hsx ▸ hInv.sVis)
        | succ k =>
          obtain ⟨u, hu, hxu⟩ := walk_last_decomp hj
          have hxvis := bfs_nbrs_visited hInv k u hu (by omega)
            (by
              intro f hf
              simp only [List.head?_cons, Option.some.injEq] at hf
              subst hf
              show k + 1 < r.length
              omega)
            x hxu
          exact (hprop x hxE).2 hxvis
      omega
  · -- sorted
    refine List.pairwise_append.mpr ⟨htail, ?_, ?_⟩
    · rw [List.pairwise_map]
      exact List.pairwise_of_forall (by simp)
    · intro a ha b hb
      have h1 := hrestlen a ha
      have h2 := hnewlen b hb
      omega
  · -- bounded
    intro f hf e he
    have hflo : r.length ≤ f.2.length := by
      cases rest with
      | cons q qs =>
        simp only [List.cons_append, List.head?_cons, Option.some.injEq] at hf
        subst hf
        exact hrestlo q (List.mem_cons_self _ _)
      | nil =>
        simp only [List.nil_append] at hf
        have := hnewlen f (List.mem_of_mem_head? hf)
        omega
    have helen : e.2.length ≤ r.length + 1 := by
      rcases List.mem_append.mp he with h | h
      · exact hrestlen e h
      · exact le_of_eq (hnewlen e h)
    omega
  · -- nodesVis
    intro e he
    rcases List.mem_append.mp he with h | h
    · exact List.mem_append_left _ (hInv.nodesVis e (List.mem_cons_of_mem _ h))
    · obtain ⟨x, hxE, rfl⟩ := List.mem_map.mp h
      exact List.mem_append_right _ hxE
  · -- expanded
    intro w hwvis hwnq j hwj hjD x hx
    rcases List.mem_append.mp hwvis with hwold | hwE
    · by_cases hwv : w = v
      · subst hwv
        rw [nbrs_of_find hinfo] at hx
        exact hcov x hx
      · have hold : ∀ e ∈ (v, r) :: rest, e.1 ≠ w := by
          intro e he
          rcases List.mem_cons.mp he with h | h
          · rw [h]
            exact fun hc => hwv hc.symm
          · exact hwnq e (List.mem_append_left _ h)
        exact List.mem_append_left _
          (hInv.expanded w hwold hold j hwj hjD x hx)
    · exfalso
      exact hwnq (w, r ++ [w])
        (List.mem_append_right _ (List.mem_map_of_mem _ hwE)) rfl
  · -- tNotVis
    intro hc
    rcases List.mem_append.mp hc with h | h
    · exact hInv.tNotVis h
    · exact ht h

/-- The invariant holds at the initial single-entry queue. -/
theorem bfsInv_init (m : SMap BacklinkInfo) (s t : String) (D : Nat)
    (hst : s ≠ t) : BfsInv m s t D [(s, [s])] [s] := by
  refine ⟨?_, ?_, ?_, ?_, by simp, ?_, ?_⟩
  · intro e he
    simp only [List.mem_singleton] at he
    subst he
    refine ⟨by simp, ⟨rfl, rfl, List.chain'_singleton s⟩, ?_⟩
    intro n _
    simp
  · simp
  · intro f hf e he
    simp only [List.head?_cons, Option.some.injEq] at hf
    simp only [List.mem_singleton] at he
    subst hf
    subst he
    omega
  · intro e he
    simp only [List.mem_singleton] at he
    subst he
    simp
  · intro w hwvis hwnq
    exfalso
    simp only [List.mem_singleton] at hwvis
    exact hwnq (s, [s]) (by simp) hwvis.symm
  · simp only [List.mem_singleton]
    exact fun h => hst h.symm

/-- The queue loop always terminates within the measure bound and its answer
is sound and complete: a returned path is a globally minimal route to the
target of at most `D + 1` nodes, and a not-found answer means no walk of at
most `D` edges exists. -/
theorem bfsLoop_correct (m : SMap BacklinkInfo) (s t : String) (D : Nat) :
    ∀ (fuel : Nat) (Q : List (String × List String)) (vis : List String),
      BfsInv m s t D Q vis → muBfs m Q vis < fuel →
      ∃ res, bfsLoop m t D fuel Q vis = some res ∧
        ((∃ p, res = some p ∧ RouteOk m s t p ∧ p.length ≤ D + 1 ∧
            ∀ n, Walk m s t n → p.length ≤ n + 1) ∨
          (res = none ∧ ∀ n, Walk m s t n → D < n)) := by
  intro fuel
  induction fuel with
  | zero =>
    intro Q vis _ hmu
    omega
  | succ fl ih =>
    intro Q vis hInv hmu
    cases Q with
    | nil =>
      refine ⟨none, rfl, Or.inr ⟨rfl, ?_⟩⟩
      intro n hw
      by_contra hle
      push_neg at hle
      refine hInv.tNotVis (bfs_visited_of_close hInv n t hw (by omega) ?_)
      intro g hg
      simp at hg
    | cons e rest =>
      obtain ⟨v, r⟩ := e
      by_cases hdeep : r.length > D
      · have hstep : bfsLoop m t D (fl + 1) ((v, r) :: rest) vis =
            bfsLoop m t D fl rest vis := by
          simp only [bfsLoop, if_pos hdeep]
        have hInv2 := bfsInv_skip_deep hInv hdeep
        have hmu2 : muBfs m rest vis < fl := by
          simp only [muBfs, List.length_cons] at hmu ⊢
          omega
        obtain ⟨res, hres, hcase⟩ := ih rest vis hInv2 hmu2
        exact ⟨res, by rw [hstep]; exact hres, hcase⟩
      · push_neg at hdeep
        cases hfind : SMap.find? m v with
        | none =>
          have hstep : bfsLoop m t D (fl + 1) ((v, r) :: rest) vis =
              bfsLoop m t D fl rest vis := by
            simp only [bfsLoop, if_neg (by omega : ¬ r.length > D), hfind]
          have hInv2 := bfsInv_skip_nofind hInv hfind
          have hmu2 : muBfs m rest vis < fl := by
            simp only [muBfs, List.length_cons] at hmu ⊢
            omega
          obtain ⟨res, hres, hcase⟩ := ih rest vis hInv2 hmu2
          exact ⟨res, by rw [hstep]; exact hres, hcase⟩
        | some info =>
          cases hscan : bfsScan t r (nbrsOf info v) rest vis with
          | inl p =>
            have hstep : bfsLoop m t D (fl + 1) ((v, r) :: rest) vis =
                some (some p) := by
              simp only [bfsLoop, if_neg (by omega : ¬ r.length > D), hfind, hscan]
            obtain ⟨hp, htns⟩ := bfsScan_inl t r _ _ _ _ hscan
            subst hp
            have hentry := hInv.entries (v, r) (List.mem_cons_self _ _)
            have htn : t ∈ nbrs m v := by
              rw [nbrs_of_find hfind]
              exact htns
            refine ⟨some (r ++ [t]), hstep,
              Or.inl ⟨r ++ [t], rfl, routeOk_snoc hentry.2.1 hentry.1 htn, ?_, ?_⟩⟩
            · simp only [List.length_append, List.length_singleton]
              omega
            · intro n hw
              simp only [List.length_append, List.length_singleton]
              have hrn : r.length ≤ n := by
                by_contra hlt
                push_neg at hlt
                cases n with
                | zero =>
                  exact hInv.tNotVis (walk_zero hw ▸ hInv.sVis)
                | succ k =>
                  obtain ⟨u, hu, htu⟩ := walk_last_decomp hw
                  refine hInv.tNotVis (bfs_nbrs_visited hInv k u hu (by omega) ?_ t htu)
                  intro g hg
                  simp only [List.head?_cons, Option.some.injEq] at hg
                  subst hg
                  show k + 1 < r.length
                  omega
              omega
          | inr qv =>
            obtain ⟨Qf, Vf⟩ := qv
            have hstep : bfsLoop m t D (fl + 1) ((v, r) :: rest) vis =
                bfsLoop m t D fl Qf Vf := by
              simp only [bfsLoop, if_neg (by omega : ¬ r.length > D), hfind, hscan]
            obtain ⟨E, hQf, hVf, hnd, hprop, hall⟩ := bfsScan_inr t r _ _ _ _ _ hscan
            subst hQf
            subst hVf
            have ht : t ∉ E := by
              intro hc
              exact (hall t (hprop t hc).1).1 rfl
            have hcov : ∀ x ∈ nbrsOf info v, x ∈ vis ++ E := by
              intro x hx
              exact (hall x hx).2
            have hInv2 := bfsInv_expand hInv hdeep hfind hnd hprop hcov ht
            have hdrop := unseen_drop m v info (SMap.find?_mem m v info hfind)
              vis E hnd hprop
            have hmu2 : muBfs m (rest ++ E.map (fun x => (x, r ++ [x]))) (vis ++ E) <
                fl := by
              simp only [muBfs, List.length_append, List.length_map,
                List.length_cons] at hmu ⊢
              omega
            obtain ⟨res, hres, hcase⟩ := ih _ _ hInv2 hmu2
            exact ⟨res, by rw [hstep]; exact hres, hcase⟩

/-- C8: for distinct normalized endpoints, `getShortestPath` returns a route
over the undirected union of outgoing and incoming links whose node count is
minimal over all walks whenever some walk of at most `maxDepth` edges exists,
and reports not-found otherwise. -/
theorem c8_shortest_path_correct (st : BState) (fromPath toPath : String)
    (maxDepth : Nat)
    (hne : normalizePath fromPath ≠ normalizePath toPath) :
    ((∃ n, n ≤ maxDepth ∧
        Walk st.backlinks (normalizePath fromPath) (normalizePath toPath) n) →
      ∃ p, getShortestPath st fromPath toPath maxDepth = some p ∧
        RouteOk st.backlinks (normalizePath fromPath) (normalizePath toPath) p ∧
        ∀ n, Walk st.backlinks (normalizePath fromPath) (normalizePath toPath) n →
          p.length ≤ n + 1) ∧
    ((¬ ∃ n, n ≤ maxDepth ∧
        Walk st.backlinks (normalizePath fromPath) (normalizePath toPath) n) →
      getShortestPath st fromPath toPath maxDepth = none) := by
  have hInv0 := bfsInv_init st.backlinks (normalizePath fromPath)
    (normalizePath toPath) maxDepth hne
  have hmu0 : muBfs st.backlinks
      [(normalizePath fromPath, [normalizePath fromPath])]
      [normalizePath fromPath] < totalNbrLen st.backlinks + 2 := by
    have hub := unseen_le_total st.backlinks [normalizePath fromPath]
    simp only [muBfs, List.length_singleton]
    omega
  obtain ⟨res, hres, hcase⟩ := bfsLoop_correct st.backlinks
    (normalizePath fromPath) (normalizePath toPath) maxDepth
    (totalNbrLen st.backlinks + 2) _ _ hInv0 hmu0
  have hgsp : getShortestPath st fromPath toPath maxDepth = res := by
    simp only [getShortestPath]
    rw [if_neg hne, hres]
  rcases hcase with ⟨p, hpres, hroute, hplen, hmin⟩ | ⟨hnone, hfar⟩
  · subst hpres
    constructor
    · intro _
      exact ⟨p, by rw [hgsp], hroute, hmin⟩
    · intro hnreach
      exfalso
      apply hnreach
      exact ⟨p.length - 1, by omega, routeOk_walk hroute⟩
  · subst hnone
    constructor
    · rintro ⟨n, hnD, hw⟩
      have := hfar n hw
      omega
    · intro _
      exact hgsp

/-- C8 witness: on the graph `a → b`, `b → c`, `a → c` the endpoints are
distinct, a one-edge walk exists within depth 6, and the search returns the
two-node path `[a, c]`. -/
theorem c8_shortest_path_correct_witness :
    normalizePath "a" ≠ normalizePath "c" ∧
    (∃ p, getShortestPath exSpState "a" "c" 6 = some p ∧
       RouteOk exSpState.backlinks (normalizePath "a") (normalizePath "c") p ∧
       ∀ n, Walk exSpState.backlinks (normalizePath "a") (normalizePath "c") n →
         p.length ≤ n + 1) ∧
    getShortestPath exSpState "a" "c" 6 = some ["a", "c"] :=
  ⟨by with_unfolding_all decide,
   (c8_shortest_path_correct exSpState "a" "c" 6 (by with_unfolding_all decide)).1
     ⟨1, by omega,
      Walk.cons (by with_unfolding_all decide) (Walk.nil (normalizePath "c"))⟩,
   by with_unfolding_all decide⟩

end Mycelium
